import Mathlib

/-!
# Verification of the `labelcorrection` label-editing engine

A shallow embedding, in Lean 4, of `labelcorrection/labelcorrection.py`:
an undo/redo engine for ordered sequences of timed, named interval
records, driven by a small textual s-expression command language.

Conventions of the embedding:
* Python strings are `List Char` (`Word`).
* Python numbers are modelled exactly: `int` as `ℤ`, `float` as a signed
  decimal (integer part together with the list of fractional digits), which
  is how every float handled by this program is written and re-read.
  Comparisons coerce both to `ℚ`.
* Python dicts are insertion-ordered association lists; writing to an
  existing key updates it in place, writing to a fresh key appends.
* Python list indexing, `pop` and `insert` keep their negative-index and
  clamping semantics.
* Fallible code returns `Except Err`; each `Err` constructor names the
  Python exception class raised at that point.
* Mutation is state passing: a Python function mutating `labels` becomes a
  function returning the new `labels`.
-/

namespace LabelCorrection

/-- Python strings. -/
abbrev Word := List Char

/-- A decimal digit. -/
abbrev Digit := Fin 10

/-- Atomic Python values that occur in label records and as command
literals: `None`, `int`, `float` and `str`.  Finite floats are kept in
signed decimal notation; the non-finite floats `float('inf')` /
`float('-inf')` / `float('nan')`, which `atomize` can also produce,
get constructors of their own. -/
inductive Val : Type where
  | null : Val
  | int (n : ℤ) : Val
  | flt (neg : Bool) (ip : ℕ) (frac : List Digit) : Val
  | inf (neg : Bool) : Val
  | nan : Val
  | str (s : Word) : Val
deriving DecidableEq, Repr

/-- Rational value of a decimal float. -/
def fltVal (neg : Bool) (ip : ℕ) (frac : List Digit) : ℚ :=
  (if neg then -1 else 1) *
    ((ip : ℚ) + frac.foldr (fun d acc => (((d : ℕ) : ℚ) + acc) / 10) (0 : ℚ))

/-- Numeric value of a `Val`, when it has a finite one (Python comparison
between a number and `None` or a string raises `TypeError`; the engine's
own records and generated commands only ever hold finite numbers, so the
ordered comparisons are modelled on those). -/
def Val.toRat? : Val → Option ℚ
  | .int n => some (n : ℚ)
  | .flt neg ip frac => some (fltVal neg ip frac)
  | _ => none

/-- S-expressions as the Python code manipulates them: nested lists whose
leaves are plain values, `Symbol`s and `KeyArg`s (both `str` subclasses
holding the canonical underscore form). -/
inductive SExpr : Type where
  | val (v : Val) : SExpr
  | sym (s : Word) : SExpr
  | key (s : Word) : SExpr
  | form (es : List SExpr) : SExpr
deriving Repr

mutual

/-- Decidable equality for `SExpr` (structural; coincides with Python `==`
on the trees the engine builds, whose leaves are never numerically mixed). -/
def SExpr.beq : SExpr → SExpr → Bool
  | .val v, .val w => v = w
  | .sym s, .sym t => s = t
  | .key s, .key t => s = t
  | .form es, .form fs => SExpr.beqList es fs
  | _, _ => false

def SExpr.beqList : List SExpr → List SExpr → Bool
  | [], [] => true
  | e :: es, f :: fs => SExpr.beq e f && SExpr.beqList es fs
  | _, _ => false

end

mutual

def SExpr.beq_refl : ∀ e : SExpr, SExpr.beq e e = true
  | .val _ => by simp [SExpr.beq]
  | .sym _ => by simp [SExpr.beq]
  | .key _ => by simp [SExpr.beq]
  | .form es => by simp [SExpr.beq, SExpr.beqList_refl es]

def SExpr.beqList_refl : ∀ es : List SExpr, SExpr.beqList es es = true
  | [] => by simp [SExpr.beqList]
  | e :: es => by simp [SExpr.beqList, SExpr.beq_refl e, SExpr.beqList_refl es]

end

mutual

def SExpr.eq_of_beq : ∀ {e f : SExpr}, SExpr.beq e f = true → e = f
  | .val _, .val _, h => by
      simp only [SExpr.beq, decide_eq_true_eq] at h; exact congrArg _ h
  | .sym _, .sym _, h => by
      simp only [SExpr.beq, decide_eq_true_eq] at h; exact congrArg _ h
  | .key _, .key _, h => by
      simp only [SExpr.beq, decide_eq_true_eq] at h; exact congrArg _ h
  | .form _, .form _, h => by
      simp only [SExpr.beq] at h; exact congrArg _ (SExpr.eqList_of_beq h)
  | .val _, .sym _, h | .val _, .key _, h | .val _, .form _, h
  | .sym _, .val _, h | .sym _, .key _, h | .sym _, .form _, h
  | .key _, .val _, h | .key _, .sym _, h | .key _, .form _, h
  | .form _, .val _, h | .form _, .sym _, h | .form _, .key _, h => by
      simp [SExpr.beq] at h

def SExpr.eqList_of_beq : ∀ {es fs : List SExpr},
    SExpr.beqList es fs = true → es = fs
  | [], [], _ => rfl
  | e :: es, f :: fs, h => by
      simp only [SExpr.beqList, Bool.and_eq_true] at h
      exact congrArg₂ (· :: ·) (SExpr.eq_of_beq h.1) (SExpr.eqList_of_beq h.2)
  | [], _ :: _, h | _ :: _, [], h => by simp [SExpr.beqList] at h

end

instance : DecidableEq SExpr := fun e f =>
  if h : SExpr.beq e f then .isTrue (SExpr.eq_of_beq h)
  else .isFalse (fun hc => h (hc ▸ SExpr.beq_refl e))

/-- Python exceptions that the embedded code can raise. -/
inductive Err : Type where
  | keyError : Err
  | indexError : Err
  | typeError : Err
  | valueError : Err
  | syntaxEOF : Err          -- SyntaxError('unexpected EOF')
  | syntaxClose : Err        -- SyntaxError('unexpected )')
deriving DecidableEq, Repr

/-- Python sequence index adjustment: `-n ≤ i < n` is valid, negative
indices count from the end. -/
def pyIdx (i : ℤ) (n : ℕ) : Option ℕ :=
  if 0 ≤ i then (if i < (n : ℤ) then some i.toNat else none)
  else (if -(n : ℤ) ≤ i then some (i + n).toNat else none)

/-- Python `l[i]` on a list/deque. -/
def pyGet (l : List α) (i : ℤ) : Except Err α :=
  match pyIdx i l.length with
  | some j => if h : j < l.length then .ok (l.get ⟨j, h⟩) else .error .indexError
  | none => .error .indexError

/-- Python in-place update of `l[i]` by `f` (used for `labels[i][k] = v`:
the record at `i` is mutated through `f`). -/
def pyModify (l : List α) (i : ℤ) (f : α → Except Err α) : Except Err (List α) :=
  match pyIdx i l.length with
  | some j => do
      let a ← pyGet l i
      let a' ← f a
      .ok (l.set j a')
  | none => .error .indexError

/-- Python `l.pop(i)`: returns the removed element and the remaining list. -/
def pyPop (l : List α) (i : ℤ) : Except Err (α × List α) :=
  match pyIdx i l.length with
  | some j => do
      let a ← pyGet l i
      .ok (a, l.take j ++ l.drop (j + 1))
  | none => .error .indexError

/-- Python `l.insert(i, a)`: clamps out-of-range indices, never fails. -/
def pyInsert (l : List α) (i : ℤ) (a : α) : List α :=
  let j : ℕ := if 0 ≤ i then min i.toNat l.length
               else (max 0 ((l.length : ℤ) + i)).toNat
  l.take j ++ a :: l.drop j

/-- A label record: a Python dict from field name to value, kept in
insertion order. -/
abbrev Rec := List (Word × Val)

/-- The label sequence. -/
abbrev Labels := List Rec

/-- Python `d[k]` read on a record (first match; dict keys are unique). -/
def dget (r : Rec) (k : Word) : Option Val :=
  (r.find? (fun p => p.1 = k)).map (·.2)

/-- Python `d[k] = v`: update in place if the key exists, else append. -/
def dset (r : Rec) (k : Word) (v : Val) : Rec :=
  match r with
  | [] => [(k, v)]
  | (k', v') :: rest =>
      if k' = k then (k', v) :: rest else (k', v') :: dset rest k v

/-- Python `del d[k]`: `none` when the key is absent (`KeyError`). -/
def ddel (r : Rec) (k : Word) : Option Rec :=
  match r with
  | [] => none
  | (k', v') :: rest =>
      if k' = k then some rest else (ddel rest k).map ((k', v') :: ·)

/-- The keys of a record, in order. -/
def dkeys (r : Rec) : List Word := r.map (·.1)

/-- Shorthand for string literals as `Word`s. -/
def W (s : String) : Word := s.data

/-- `Option` to `Except` with the given Python exception. -/
def exO (o : Option α) (e : Err) : Except Err α :=
  match o with
  | some a => .ok a
  | none => .error e

instance {ε α : Type} [DecidableEq ε] [DecidableEq α] :
    DecidableEq (Except ε α) := fun x y =>
  match x, y with
  | .ok a, .ok b =>
      if h : a = b then .isTrue (by rw [h]) else .isFalse (by simp [h])
  | .error a, .error b =>
      if h : a = b then .isTrue (by rw [h]) else .isFalse (by simp [h])
  | .ok _, .error _ => .isFalse (by simp)
  | .error _, .ok _ => .isFalse (by simp)

/-- The callable primitives bound in the evaluation environment
(`make_env`): the five operations, partially applied as in the source, and
`dict`, to which `interval` / `interval_pair` are bound. -/
inductive Prim : Type where
  | set_value (column : Word) : Prim
  | merge_next : Prim
  | split : Prim
  | delete : Prim
  | create : Prim
  | mkdict : Prim
deriving DecidableEq, Repr

/-- Runtime values of the evaluator: plain values, fresh dicts built by
`interval`/`interval_pair`, the label list itself (`env['labels']`), and
callables. -/
inductive RVal : Type where
  | v (x : Val) : RVal
  | dict (r : Rec) : RVal
  | labelsRef : RVal
  | prim (p : Prim) : RVal
deriving DecidableEq, Repr

/-- Keyword arguments after the `**kwargs` call boundary: every key is a
string. Values keep their runtime form. -/
abbrev SKw := List (Word × RVal)

/-- `kwargs[k]` (`KeyError` when absent). -/
def kwGet (kw : SKw) (k : Word) : Except Err RVal :=
  exO ((kw.find? (fun p => p.1 = k)).map (·.2)) .keyError

/-- A runtime value stored into a label record must be an atomic value;
parsed commands only ever pass atoms, numbers or `null` in value position. -/
def asVal (x : RVal) : Except Err Val :=
  match x with
  | .v a => .ok a
  | _ => .error .typeError

/-- Numeric coercion for a Python `<`/`>` comparison operand
(`TypeError` for `None`, strings and anything non-numeric). -/
def asNum (x : RVal) : Except Err ℚ :=
  match x with
  | .v a => exO a.toRat? .typeError
  | _ => .error .typeError

/-- `target['index']` as a list index: Python allows only `int` here
(`labels[2.0]` and `labels['a']` raise `TypeError`). -/
def tgtIndex (target : Rec) : Except Err ℤ := do
  let v ← exO (dget target (W "index")) .keyError
  match v with
  | .int n => .ok n
  | _ => .error .typeError

/-- `dict[k]` read raising `KeyError`. -/
def dgetE (r : Rec) (k : Word) : Except Err Val :=
  exO (dget r k) .keyError

/-- `_set_value(labels, target, column, **kwargs)` of the source:
checks the column exists, then overwrites it with `kwargs['new_<column>']`. -/
def _set_value (labels : Labels) (target : Rec) (column : Word)
    (kwargs : SKw) : Except Err Labels := do
  let i ← tgtIndex target
  let r ← pyGet labels i
  let _ ← dgetE r column            -- raise KeyError if column not present
  let x ← kwGet kwargs (W "new_" ++ column)
  let v ← asVal x
  pyModify labels i (fun r => .ok (dset r column v))

/-- `_merge_next(labels, target, **kwargs)` of the source. -/
def _merge_next (labels : Labels) (target : Rec)
    (kwargs : SKw) : Except Err Labels := do
  let i ← tgtIndex target
  let rNext ← pyGet labels (i + 1)
  let stp ← dgetE rNext (W "stop")
  let labels ← pyModify labels i (fun r => .ok (dset r (W "stop") stp))
  let x ← kwGet kwargs (W "new_name")
  let v ← asVal x
  let labels ← pyModify labels i (fun r => .ok (dset r (W "name") v))
  let (_, labels) ← pyPop labels (i + 1)
  .ok labels

/-- The write loop of `_split`: `new_next_<f>` values go to the clone,
other `new_<f>` values to the original record, in keyword order. -/
def splitWrites (kwargs : SKw) (r clone : Rec) : Except Err (Rec × Rec) :=
  match kwargs with
  | [] => .ok (r, clone)
  | (k, x) :: rest =>
      if k.take 9 = W "new_next_" then do
        let v ← asVal x
        splitWrites rest r (dset clone (k.drop 9) v)
      else if k.take 4 = W "new_" then do
        let v ← asVal x
        splitWrites rest (dset r (k.drop 4) v) clone
      else splitWrites rest r clone

/-- `_split(labels, target, **kwargs)` of the source: validates the split
point against the targeted record's original bounds (short-circuit `and`,
as in Python), then clones the record, applies the writes and inserts the
clone after the original. -/
def _split (labels : Labels) (target : Rec)
    (kwargs : SKw) : Except Err Labels := do
  let ns ← kwGet kwargs (W "new_stop")
  let i ← tgtIndex target
  let r ← pyGet labels i
  let st ← dgetE r (W "start")
  let nsq ← asNum ns
  let stq ← exO st.toRat? .typeError
  let ok ← if nsq > stq then do
      let nns ← kwGet kwargs (W "new_next_start")
      let sp ← dgetE r (W "stop")
      let nnsq ← asNum nns
      let spq ← exO sp.toRat? .typeError
      pure (decide (nnsq < spq))
    else pure false
  if !ok then .error .valueError     -- 'split point must be within interval'
  else do
    let (r', clone') ← splitWrites kwargs r r
    let labels ← pyModify labels i (fun _ => .ok r')
    .ok (pyInsert labels (i + 1) clone')

/-- `_delete(labels, target, **kwargs)` of the source. -/
def _delete (labels : Labels) (target : Rec)
    (_kwargs : SKw) : Except Err Labels := do
  let i ← tgtIndex target
  let (_, labels) ← pyPop labels i
  .ok labels

/-- `_create(labels, target, **kwargs)` of the source: builds the new
record from `target` minus `index`, mandatory fields first. -/
def _create (labels : Labels) (target : Rec)
    (_kwargs : SKw) : Except Err Labels := do
  let i ← tgtIndex target
  let st ← dgetE target (W "start")
  let sp ← dgetE target (W "stop")
  let nm ← dgetE target (W "name")
  let t ← exO (ddel target (W "start")) .keyError
  let t ← exO (ddel t (W "stop")) .keyError
  let t ← exO (ddel t (W "name")) .keyError
  let t ← exO (ddel t (W "index")) .keyError
  let newPoint : Rec :=
    t.foldl (fun acc p => dset acc p.1 p.2)
      [(W "start", st), (W "stop", sp), (W "name", nm)]
  .ok (pyInsert labels i newPoint)

/-! ## Evaluator

`evaluate(expr, env)` with `env = make_env(labels=labels)`, the only
environment the engine ever builds.  The label list is threaded as state;
`env['labels']` denotes it (`RVal.labelsRef`).  Python aliasing of the one
label-list object is modelled by that marker: a primitive receiving
`labels=<marker>` (or nothing, from the `ft.partial` binding) acts on the
state list, exactly as the source does. -/

/-- Name resolution in `make_env(labels)` (`env[expr]`, `KeyError` when
unbound). -/
def envLookup (s : Word) : Except Err RVal :=
  if s = W "set_name" then .ok (.prim (.set_value (W "name")))
  else if s = W "set_start" then .ok (.prim (.set_value (W "start")))
  else if s = W "set_stop" then .ok (.prim (.set_value (W "stop")))
  else if s = W "merge_next" then .ok (.prim .merge_next)
  else if s = W "split" then .ok (.prim .split)
  else if s = W "delete" then .ok (.prim .delete)
  else if s = W "create" then .ok (.prim .create)
  else if s = W "interval" then .ok (.prim .mkdict)
  else if s = W "interval_pair" then .ok (.prim .mkdict)
  else if s = W "labels" then .ok .labelsRef
  else .error .keyError

/-- A dict key as Python hashes it: strings (incl. `Symbol`/`KeyArg`)
collapse to their text; other atoms are hashable non-string keys. -/
inductive KeyRep : Type where
  | kstr (s : Word) : KeyRep
  | kval (x : Val) : KeyRep
deriving DecidableEq, Repr

/-- Raw keyword dict as the comprehension in `evaluate` builds it. -/
abbrev RawKw := List (KeyRep × RVal)

/-- `d[k] = x` on the raw keyword dict (replace in place or append). -/
def krInsert (d : RawKw) (k : KeyRep) (x : RVal) : RawKw :=
  match d with
  | [] => [(k, x)]
  | (k', x') :: rest =>
      if k' = k then (k', x) :: rest else (k', x') :: krInsert rest k x

/-- Classify `p[0]` as a dict key: a list is unhashable (`TypeError`). -/
def keyRepOf (e : SExpr) : Except Err KeyRep :=
  match e with
  | .sym s => .ok (.kstr s)
  | .key s => .ok (.kstr s)
  | .val (.str s) => .ok (.kstr s)
  | .val x => .ok (.kval x)
  | .form _ => .error .typeError

/-- The `proc(**kwargs)` boundary: every key must be a string. -/
def callCheck (d : RawKw) : Except Err SKw :=
  match d with
  | [] => .ok []
  | (.kstr s, x) :: rest => (callCheck rest).map ((s, x) :: ·)
  | (.kval _, _) :: _ => .error .typeError

/-- Remove the first binding of `k`, keeping the order of the others. -/
def popKw (kw : SKw) (k : Word) : Option RVal × SKw :=
  match kw with
  | [] => (none, [])
  | (k', x) :: rest =>
      if k' = k then (some x, rest)
      else
        let (o, r) := popKw rest k
        (o, (k', x) :: r)

/-- Bind the `labels` parameter: the keyword (when present) must denote
the one label-list object; the `ft.partial` default is that same object.
(A command supplying any other value would make the primitive act on a
foreign object — no parsed command can produce one, and it is not
modelled.) -/
def bindLabels (kw : SKw) : Except Err SKw :=
  match popKw kw (W "labels") with
  | (none, rest) => .ok rest
  | (some .labelsRef, rest) => .ok rest
  | (some _, _) => .error .typeError

/-- Bind the required `target` parameter (missing → `TypeError`; Python
then fails subscripting any non-dict with `'index'`, also `TypeError`). -/
def bindTarget (kw : SKw) : Except Err (Rec × SKw) :=
  match popKw kw (W "target") with
  | (none, _) => .error .typeError
  | (some (.dict r), rest) => .ok (r, rest)
  | (some _, _) => .error .typeError

/-- Bind the `column` parameter of `_set_value` (keyword override beats
the `ft.partial` default, as in Python; a non-string override would be
used as a record key, which only strings are in this model). -/
def bindColumn (kw : SKw) (dflt : Word) : Except Err (Word × SKw) :=
  match popKw kw (W "column") with
  | (none, rest) => .ok (dflt, rest)
  | (some (.v (.str s)), rest) => .ok (s, rest)
  | (some _, _) => .error .typeError

/-- `dict(**kw)`: a fresh record from string keywords (unique, since they
come out of a dict).  Commands only put atoms in value position; other
runtime values are outside the model. -/
def recOfKw (kw : SKw) : Except Err Rec :=
  match kw with
  | [] => .ok []
  | (k, x) :: rest => do
      let v ← asVal x
      let r ← recOfKw rest
      .ok ((k, v) :: r)

/-- Apply a callable from the environment to string keyword arguments.
The five operations return `None` after mutating the labels. -/
def callPrim (p : Prim) (kw : SKw) (L : Labels) : Except Err (RVal × Labels) :=
  match p with
  | .mkdict => do
      let r ← recOfKw kw
      .ok (.dict r, L)
  | .set_value col => do
      let kw ← bindLabels kw
      let (tgt, kw) ← bindTarget kw
      let (col, kw) ← bindColumn kw col
      let L ← _set_value L tgt col kw
      .ok (.v .null, L)
  | .merge_next => do
      let kw ← bindLabels kw
      let (tgt, kw) ← bindTarget kw
      let L ← _merge_next L tgt kw
      .ok (.v .null, L)
  | .split => do
      let kw ← bindLabels kw
      let (tgt, kw) ← bindTarget kw
      let L ← _split L tgt kw
      .ok (.v .null, L)
  | .delete => do
      let kw ← bindLabels kw
      let (tgt, kw) ← bindTarget kw
      let L ← _delete L tgt kw
      .ok (.v .null, L)
  | .create => do
      let kw ← bindLabels kw
      let (tgt, kw) ← bindTarget kw
      let L ← _create L tgt kw
      .ok (.v .null, L)

mutual

/-- `evaluate(expr, make_env(labels=L))` of the source.  A `Symbol`
(hence also a `KeyArg`) resolves in the environment; other atoms are
themselves; a form applies its head to keyword arguments read as
`_grouper(expr[1:], 2)` pairs — argument names are taken verbatim from
the even positions, never evaluated, while values are evaluated.  An
empty form fails on `expr[0]` (`IndexError`); a non-callable head fails
with `TypeError`. -/
def evaluate (e : SExpr) (L : Labels) : Except Err (RVal × Labels) :=
  match e with
  | .sym s => (envLookup s).map ((·, L))
  | .key s => (envLookup s).map ((·, L))
  | .val x => .ok (.v x, L)
  | .form [] => .error .indexError
  | .form (h :: args) => do
      let (procv, L) ← evaluate h L
      let (d, L) ← evalPairs args [] L
      match procv with
      | .prim p => do
          let kw ← callCheck d
          callPrim p kw L
      | _ => .error .typeError

/-- The keyword dict comprehension over `_grouper(args, 2)`:
`itertools.zip_longest` pads an odd tail with `None`. -/
def evalPairs (args : List SExpr) (acc : RawKw) (L : Labels) :
    Except Err (RawKw × Labels) :=
  match args with
  | [] => .ok (acc, L)
  | [a] => do
      let k ← keyRepOf a
      .ok (krInsert acc k (.v .null), L)
  | a :: b :: rest => do
      let (xv, L) ← evaluate b L
      let k ← keyRepOf a
      evalPairs rest (krInsert acc k xv) L

end

/-- `CorrectionStack._apply`: run a command against the labels. -/
def applyCmd (c : SExpr) (L : Labels) : Except Err Labels :=
  (evaluate c L).map (·.2)

/-! ## Inverter -/

/-- `INVERSE_TABLE` of the source. -/
def INVERSE_TABLE (op : Word) : Option Word :=
  if op = W "set_name" then some (W "set_name")
  else if op = W "set_start" then some (W "set_start")
  else if op = W "set_stop" then some (W "set_stop")
  else if op = W "merge_next" then some (W "split")
  else if op = W "split" then some (W "merge_next")
  else if op = W "delete" then some (W "create")
  else if op = W "create" then some (W "delete")
  else none

/-- Python `==` between an s-expression element and a string: `Symbol`s,
`KeyArg`s and string values compare by text, everything else is unequal. -/
def eqStr (e : SExpr) (w : Word) : Bool :=
  match e with
  | .sym s => s = w
  | .key s => s = w
  | .val (.str s) => s = w
  | _ => false

/-- Python `list.index(w)` (first match; `ValueError` when absent). -/
def pyIndexList (es : List SExpr) (w : Word) : Option ℕ :=
  es.findIdx? (eqStr · w)

/-- An element at which the inversion loop acts:
`isinstance(curr, KeyArg) and len(curr) >= 4 and curr[:4] == 'new_'`. -/
def isNewKey (e : SExpr) : Bool :=
  match e with
  | .key k => k.take 4 = W "new_"
  | _ => false

/-- One position `i` of the inversion loop.  `jt` is the (fixed) slot of
the `target` sub-list; the loop can be shown never to overwrite slot `jt`
itself, so reading it afresh models Python's single binding of the
mutable `target` object.  Swaps `target[<f>]` with the `new_<f>` value. -/
def invStep (jt : ℕ) (es : List SExpr) (i : ℕ) : Except Err (List SExpr) :=
  match es.get? i with
  | some (.key k) =>
      if k.take 4 = W "new_" then
        match es.get? jt with
        | some (.form ts) =>
            match pyIndexList ts (k.drop 4) with
            | none => .error .valueError
            | some m =>
                match ts.get? (m + 1), es.get? (i + 1) with
                | some oldval, some xi1 =>
                    .ok ((es.set jt (.form (ts.set (m + 1) xi1))).set (i + 1) oldval)
                | none, _ => .error .indexError
                | some _, none => .error .indexError
        | some _ => .error .typeError         -- target is not a list
        | none => .error .indexError
      else .ok es
  | _ => .ok es

/-- The loop `for i in range(len(s_expr))` of `invert`, over the listed
indices. -/
def invIter (jt : ℕ) (idxs : List ℕ) (es : List SExpr) :
    Except Err (List SExpr) :=
  match idxs with
  | [] => .ok es
  | i :: rest => do
      let es' ← invStep jt es i
      invIter jt rest es'

/-- `invert(s_expr)` of the source, with the in-place mutation made
explicit: returns the constructed inverse **and** the argument as the
call leaves it (the source swaps each `new_<f>` keyword value with the
`<f>` value inside `target`, mutating its argument, then builds the
inverse as the replaced head consed onto the argument's tail).
Only command forms are inverted; the engine never passes atoms. -/
def opName (e : SExpr) : Except Err Word :=
  match e with
  | .sym s => .ok s
  | .key s => .ok s
  | .val (.str s) => .ok s
  | .val _ => .error .keyError              -- hashable non-string: KeyError
  | .form _ => .error .typeError            -- unhashable

def invert (e : SExpr) : Except Err (SExpr × SExpr) :=
  match e with
  | .form es =>
      match es.get? 0 with
      | none => .error .indexError          -- s_expr[0] on an empty list
      | some hd =>
          match opName hd with
          | .error er => .error er
          | .ok op =>
              match INVERSE_TABLE op with
              | none => .error .keyError
              | some inv =>
                  match pyIndexList es (W "target") with
                  | none => .error .valueError
                  | some j =>
                      match es.get? (j + 1) with
                      | none => .error .indexError
                      | some _ =>
                          match invIter (j + 1) (List.range es.length) es with
                          | .error er => .error er
                          | .ok es' =>
                              .ok (.form (.sym inv :: es'.drop 1), .form es')
  | _ => .error .typeError

/-- The inverse command alone (first component of `invert`). -/
def invFst (e : SExpr) : Except Err SExpr := (invert e).map (·.1)

/-! ## Correction stack -/

/-- The state of a `CorrectionStack`: the label sequence it owns, the two
deques, and the persistence metadata. -/
structure CorrectionStack : Type where
  labels : Labels
  undo_stack : List SExpr
  redo_stack : List SExpr
  file : Word
  uuid : Word
  label_hash : Word
deriving DecidableEq, Repr

namespace CorrectionStack

/-- `push(cmd)`: clear the redo stack, append the command to the undo
stack, execute it. -/
def push (s : CorrectionStack) (cmd : SExpr) : Except Err CorrectionStack := do
  let L ← applyCmd cmd s.labels
  .ok { s with labels := L,
               undo_stack := s.undo_stack ++ [cmd],
               redo_stack := [] }

/-- `undo()`: pop the last executed command (`IndexError` on an empty
deque), invert it, append the inverse to the redo stack and apply it. -/
def undo (s : CorrectionStack) : Except Err CorrectionStack :=
  match s.undo_stack.getLast? with
  | none => .error .indexError
  | some c => do
      let (inv, _) ← invert c
      let L ← applyCmd inv s.labels
      .ok { s with labels := L,
                   undo_stack := s.undo_stack.dropLast,
                   redo_stack := s.redo_stack ++ [inv] }

/-- `redo()`: pop the last undone command (`IndexError` on an empty
deque), invert it, append the inverse to the undo stack and apply it. -/
def redo (s : CorrectionStack) : Except Err CorrectionStack :=
  match s.redo_stack.getLast? with
  | none => .error .indexError
  | some c => do
      let (inv, _) ← invert c
      let L ← applyCmd inv s.labels
      .ok { s with labels := L,
                   undo_stack := s.undo_stack ++ [inv],
                   redo_stack := s.redo_stack.dropLast }

/-- `peek(index)`: the command at `index` of the undo stack (deque
indexing: negative counts from the right, out of range raises
`IndexError`).  The default argument is `-1`. -/
def peek (s : CorrectionStack) (index : ℤ) : Except Err SExpr :=
  pyGet s.undo_stack index

end CorrectionStack

/-! ## Code generators -/

/-- `(KeyArg k, value)` pairs flattened into the command list. -/
def pairsOf (ps : List (Word × Val)) : List SExpr :=
  ps.flatMap (fun p => [.key p.1, .val p.2])

/-- `CorrectionStack._gen_code`: the command skeleton
`(op #:labels labels #:target (tname #:k v ...) #:k v ...)`. -/
def genCode (op tname : Word) (target other : List (Word × Val)) : SExpr :=
  .form ([.sym op, .key (W "labels"), .sym (W "labels"), .key (W "target"),
          .form (.sym tname :: pairsOf target)] ++ pairsOf other)

/-- Python `+` on the values the generators concatenate (`new_name`
defaulting in `codegen_merge_next`): string and integer addition; float
addition is never exercised by well-formed labels (string names) and is
not modelled. -/
def pyAdd (a b : Val) : Except Err Val :=
  match a, b with
  | .str x, .str y => .ok (.str (x ++ y))
  | .int x, .int y => .ok (.int (x + y))
  | _, _ => .error .typeError

/-- `dict.update` / repeated `d[k] = v` writes, in order. -/
def dsets (r : Rec) (ps : List (Word × Val)) : Rec :=
  ps.foldl (fun acc p => dset acc p.1 p.2) r

/-- The extra columns of a record:
`[c for c in labels[index].keys() if c not in ('start', 'stop', 'name')]`. -/
def extraCols (r : Rec) : List Word :=
  (dkeys r).filter
    (fun k => ¬(k = W "start" ∨ k = W "stop" ∨ k = W "name"))

/-- `codegen_rename(index, new_name)`. -/
def codegenRename (L : Labels) (index : ℤ) (new_name : Val) :
    Except Err SExpr := do
  let r ← pyGet L index
  let nm ← dgetE r (W "name")
  .ok (genCode (W "set_name") (W "interval")
        [(W "index", .int index), (W "name", nm)]
        [(W "new_name", new_name)])

/-- `codegen_set_start(index, new_start)`. -/
def codegenSetStart (L : Labels) (index : ℤ) (new_start : Val) :
    Except Err SExpr := do
  let r ← pyGet L index
  let st ← dgetE r (W "start")
  .ok (genCode (W "set_start") (W "interval")
        [(W "index", .int index), (W "start", st)]
        [(W "new_start", new_start)])

/-- `codegen_set_stop(index, new_stop)`. -/
def codegenSetStop (L : Labels) (index : ℤ) (new_stop : Val) :
    Except Err SExpr := do
  let r ← pyGet L index
  let sp ← dgetE r (W "stop")
  .ok (genCode (W "set_stop") (W "interval")
        [(W "index", .int index), (W "stop", sp)]
        [(W "new_stop", new_stop)])

/-- The per-column loop of `codegen_merge_next`: `target[c]`,
`target['next_' + c]` from the two records; `new_` slots default `None`. -/
def mergeColsLoop (r rn : Rec) (cols : List Word)
    (t o : List (Word × Val)) : Except Err (List (Word × Val) × List (Word × Val)) :=
  match cols with
  | [] => .ok (t, o)
  | c :: rest => do
      let rc ← dgetE r c
      let rnc ← dgetE rn c
      mergeColsLoop r rn rest
        (dsets t [(c, rc), (W "next_" ++ c, rnc)])
        (dsets o [(W "new_" ++ c, .null), (W "new_next_" ++ c, .null)])

/-- `codegen_merge_next(index, new_name=None)`. -/
def codegenMergeNext (L : Labels) (index : ℤ) (new_name : Option Val) :
    Except Err SExpr := do
  let r ← pyGet L index
  let rn ← pyGet L (index + 1)
  let nm ← dgetE r (W "name")
  let sp ← dgetE r (W "stop")
  let ns ← dgetE rn (W "start")
  let nn ← dgetE rn (W "name")
  let nnv ← match new_name with
    | some v => .ok v
    | none => pyAdd nm nn
  let t0 : List (Word × Val) :=
    [(W "index", .int index), (W "name", nm), (W "stop", sp),
     (W "next_start", ns), (W "next_name", nn)]
  let o0 : List (Word × Val) :=
    [(W "new_name", nnv), (W "new_stop", .null),
     (W "new_next_start", .null), (W "new_next_name", .null)]
  let (t, o) ← mergeColsLoop r rn (extraCols r) t0 o0
  .ok (genCode (W "merge_next") (W "interval_pair") t o)

/-- The per-column loop of `codegen_split`: pre-state from the record,
`new_<c>` / `new_next_<c>` looked up in the caller's `**kwargs`
(`KeyError` when missing, as in the source). -/
def splitColsLoop (r : Rec) (kwargs : List (Word × Val)) (cols : List Word)
    (t o : List (Word × Val)) : Except Err (List (Word × Val) × List (Word × Val)) :=
  match cols with
  | [] => .ok (t, o)
  | c :: rest => do
      let rc ← dgetE r c
      let nc ← exO ((kwargs.find? (·.1 = W "new_" ++ c)).map (·.2)) .keyError
      let nnc ← exO ((kwargs.find? (·.1 = W "new_next_" ++ c)).map (·.2)) .keyError
      splitColsLoop r kwargs rest
        (dsets t [(c, rc), (W "next_" ++ c, .null)])
        (dsets o [(W "new_" ++ c, nc), (W "new_next_" ++ c, nnc)])

/-- `codegen_split(index, new_sep, new_name=None, new_next_name=None,
**kwargs)`. -/
def codegenSplit (L : Labels) (index : ℤ) (new_sep : Val)
    (new_name new_next_name : Option Val) (kwargs : List (Word × Val)) :
    Except Err SExpr := do
  let r ← pyGet L index
  let nm ← dgetE r (W "name")
  let sp ← dgetE r (W "stop")
  let nnv := new_name.getD nm
  let nnnv := new_next_name.getD (.str [])
  let t0 : List (Word × Val) :=
    [(W "index", .int index), (W "name", nm), (W "stop", sp),
     (W "next_name", .null), (W "next_start", .null)]
  let o0 : List (Word × Val) :=
    [(W "new_name", nnv), (W "new_stop", new_sep),
     (W "new_next_start", new_sep), (W "new_next_name", nnnv)]
  let (t, o) ← splitColsLoop r kwargs (extraCols r) t0 o0
  .ok (genCode (W "split") (W "interval_pair") t o)

/-- `codegen_delete(index)`: the whole record snapshot goes into
`target` (`target.update(labels[index])`). -/
def codegenDelete (L : Labels) (index : ℤ) : Except Err SExpr := do
  let r ← pyGet L index
  .ok (genCode (W "delete") (W "interval")
        (dsets [(W "index", .int index)] r) [])

/-- `codegen_create(index, start, **kwargs)` (no labels access). -/
def codegenCreate (index : ℤ) (start : Val)
    (kwargs : List (Word × Val)) : SExpr :=
  genCode (W "create") (W "interval")
    (dsets [(W "index", .int index), (W "start", start)] kwargs) []

/-! ## Tokenizer -/

/-- The whitespace `str.split()` splits on. -/
def isWs (c : Char) : Bool :=
  c = ' ' ∨ c = '\t' ∨ c = '\n' ∨ c = '\x0d' ∨ c = '\x0b' ∨ c = '\x0c'

/-- The scanning loop of `splitWs`: `acc` holds the characters of the
word in progress, reversed. -/
def splitWsGo (s : Word) (acc : Word) : List Word :=
  match s with
  | [] => if acc = [] then [] else [acc.reverse]
  | c :: cs =>
      if isWs c then
        if acc = [] then splitWsGo cs []
        else acc.reverse :: splitWsGo cs []
      else splitWsGo cs (c :: acc)

/-- Python `cmd.split()`: maximal runs of non-whitespace; no empty words. -/
def splitWs (s : Word) : List Word := splitWsGo s []

/-- `token.count('"')`. -/
def countQuotes (w : Word) : ℕ := w.count '"'

/-- The quote-merging pass of `tokenize`, with the `in_string` flag and
the growing `second_pass` list (kept reversed in `acc`).  A token with an
odd number of quote characters opens or closes a string region; tokens
inside a region are rejoined onto the region's first token with single
spaces. -/
def secondPassGo (ws : List Word) (inString : Bool) (acc : List Word) :
    List Word :=
  match ws with
  | [] => acc.reverse
  | w :: rest =>
      let q := countQuotes w
      if q % 2 = 1 ∧ inString = false then
        secondPassGo rest true (w :: acc)
      else if q % 2 = 1 ∧ inString = true then
        match acc with
        | a :: acc' => secondPassGo rest false ((a ++ ' ' :: w) :: acc')
        | [] => secondPassGo rest false [w]      -- unreachable from a start
      else if q = 0 ∧ inString = true then
        match acc with
        | a :: acc' => secondPassGo rest true ((a ++ ' ' :: w) :: acc')
        | [] => secondPassGo rest true [w]       -- unreachable from a start
      else secondPassGo rest inString (w :: acc)

/-- The paren-splitting pass of `tokenize`: a leading `(` is split off
(the rest of the token, if any, stays one token); a token ending in `)`
loses as many trailing characters as it contains `)` characters, which
become separate tokens. -/
def thirdPassTok (w : Word) : List Word :=
  match w with
  | [] => [[]]                                   -- unreachable: words are nonempty
  | c :: cs =>
      if c = '(' then
        W "(" :: (if cs = [] then [] else [cs])
      else if (c :: cs).getLast? = some ')' then
        let ct := (c :: cs).count ')'
        (c :: cs).take ((c :: cs).length - ct) ::
          List.replicate ct (W ")")
      else [c :: cs]

/-- Decimal digit to character. -/
def digitChar (d : ℕ) : Char := Char.ofNat (48 + d)

/-- Digit extraction with a structural fuel argument (any `fuel > n`
computes the full decimal expansion; `natToChars` supplies one). -/
def natToCharsGo (fuel n : ℕ) : Word :=
  match fuel with
  | 0 => []
  | fuel + 1 =>
      if n < 10 then [digitChar n]
      else natToCharsGo fuel (n / 10) ++ [digitChar (n % 10)]

/-- `str(n)` for a natural number (decimal, no leading zeros). -/
def natToChars (n : ℕ) : Word := natToCharsGo (n + 1) n

/-- `str(n)` for a Python `int`. -/
def intToChars (n : ℤ) : Word :=
  if n < 0 then '-' :: natToChars n.natAbs else natToChars n.toNat

/-- `str(x)` for a float written in plain signed decimal notation
(`-12.05` and the like — the only float spellings this program
produces or consumes). -/
def fltToChars (neg : Bool) (ip : ℕ) (frac : List Digit) : Word :=
  (if neg then ['-'] else []) ++ natToChars ip ++
    '.' :: frac.map (fun d => digitChar d)

/-- A decimal digit character back to its value. -/
def charDigit (c : Char) : Option ℕ :=
  if 48 ≤ c.toNat ∧ c.toNat ≤ 57 then some (c.toNat - 48) else none

/-- One digit of `int(token)`'s left-to-right accumulation. -/
def digStep (acc : Option ℕ) (c : Char) : Option ℕ := do
  let a ← acc
  let d ← charDigit c
  some (a * 10 + d)

/-- Parse a nonempty all-digit word. -/
def parseDigits (w : Word) : Option ℕ :=
  match w with
  | [] => none
  | _ => w.foldl digStep (some 0)

/-- `int(token)`: optional sign then digits.  (Python's underscore
digit-group separators are not modelled; nothing here produces them.) -/
def parseIntTok (w : Word) : Option ℤ :=
  match w with
  | '-' :: rest => (parseDigits rest).map (fun n => -(n : ℤ))
  | '+' :: rest => (parseDigits rest).map (fun n => (n : ℤ))
  | _ => (parseDigits w).map (fun n => (n : ℤ))

/-- Digit characters to `Digit`s, all-or-nothing. -/
def parseFracDigits (w : Word) : Option (List Digit) :=
  match w with
  | [] => some []
  | c :: cs => do
      let d ← charDigit c
      if h : d < 10 then
        let rest ← parseFracDigits cs
        some (⟨d, h⟩ :: rest)
      else none

/-- Lowercase image of an ASCII character (`float()` matches its special
spellings case-insensitively). -/
def asciiLower (c : Char) : Char :=
  if 65 ≤ c.toNat ∧ c.toNat ≤ 90 then Char.ofNat (c.toNat + 32) else c

/-- `float(token)`: after an optional sign, either one of the special
spellings `inf`/`infinity`/`nan` (in any case), or plain decimal
notation `digits.digits` (with at least one digit); the exponent
spellings and digit-group underscores Python would also accept are
never produced by this program and are not modelled. -/
def parseFltTok (w : Word) : Option Val := do
  let (neg, body) ←
    match w with
    | '-' :: rest => some (true, rest)
    | '+' :: rest => some (false, rest)
    | _ => some (false, w)
  if body.map asciiLower = W "inf" ∨ body.map asciiLower = W "infinity" then
    some (.inf neg)
  else if body.map asciiLower = W "nan" then some .nan
  else
    let ipw := body.takeWhile (fun c => c ≠ '.')
    match body.drop ipw.length with
    | '.' :: fracw => do
        if ipw = [] ∧ fracw = [] then none
        else do
          let ip ← if ipw = [] then some 0 else parseDigits ipw
          let frac ← parseFracDigits fracw
          some (.flt neg ip frac)
    | _ => none

/-- `atomize(token)` of the source: quoted string → string; `null` →
`None`; then `int`, then `float`; else hyphens (after the first
character) become underscores and a `#:` marker makes a `KeyArg`.
An empty token would fail on `token[0]` (`IndexError`). -/
def atomize (w : Word) : Except Err SExpr :=
  match w with
  | [] => .error .indexError
  | c :: cs =>
      if c = '"' then .ok (.val (.str (cs.dropLast)))
      else if c :: cs = W "null" then .ok (.val .null)
      else match parseIntTok (c :: cs) with
      | some n => .ok (.val (.int n))
      | none =>
        match parseFltTok (c :: cs) with
        | some v => .ok (.val v)
        | none =>
          let t := c :: cs.map (fun ch => if ch = '-' then '_' else ch)
          if t.take 2 = W "#:" then .ok (.key (t.drop 2)) else .ok (.sym t)

/-- `deatomize(a)` of the source: the reverse mapping.  A `Symbol` keeps
its first character and hyphenates the rest; an empty symbol would fail
on `a[0]`; a list argument raises `ValueError` ('unknown atomic type'). -/
def deatomize (e : SExpr) : Except Err Word :=
  match e with
  | .val .null => .ok (W "null")
  | .sym s =>
      match s with
      | [] => .error .indexError
      | c :: cs => .ok (c :: cs.map (fun ch => if ch = '_' then '-' else ch))
  | .key s =>
      match s with
      | [] => .error .indexError
      | c :: cs => .ok (W "#:" ++ c :: cs.map (fun ch => if ch = '_' then '-' else ch))
  | .val (.str s) => .ok ('"' :: s ++ ['"'])
  | .val (.int n) => .ok (intToChars n)
  | .val (.flt neg ip frac) => .ok (fltToChars neg ip frac)
  | .val (.inf neg) => .ok (if neg then W "-inf" else W "inf")
  | .val .nan => .ok (W "nan")
  | .form _ => .error .valueError

/-! ## Serializer -/

mutual

/-- `write_to_tokens(ntl)` of the source: `(`, the elements' tokens,
`)`.  Only ever applied to (possibly nested) command forms. -/
def writeToTokens (e : SExpr) : Except Err (List Word) :=
  match e with
  | .form es => (writeTokList es).map (fun ts => W "(" :: ts ++ [W ")"])
  | _ => .error .typeError

/-- Elements of a form: sub-lists extend the token list recursively,
atoms append their `deatomize` image. -/
def writeTokList (es : List SExpr) : Except Err (List Word) :=
  match es with
  | [] => .ok []
  | e :: rest => do
      let pre ← match e with
        | .form es' => writeToTokens (.form es')
        | a => (deatomize a).map ([·])
      let ts ← writeTokList rest
      .ok (pre ++ ts)

end

/-- One element's tokens, as `writeTokList` computes them: a sub-list's
whole token list, an atom's single `deatomize` token. -/
def elemToks (e : SExpr) : Except Err (List Word) :=
  match e with
  | .form es' => writeToTokens (.form es')
  | a => (deatomize a).map ([·])

/-- The joining loop of `detokenize`: a space before every token except
`)` and except right after `(`. -/
def detokGo (cmd : Word) (ts : List Word) : Word :=
  match ts with
  | [] => cmd
  | t :: rest =>
      let cmd' := if t ≠ W ")" ∧ cmd.getLast? ≠ some '(' then cmd ++ ' ' :: t
                  else cmd ++ t
      detokGo cmd' rest

/-- `detokenize(token_list)` of the source (never called on an empty
list; the source would fail on `token_list[0]`). -/
def detokenize (tl : List Word) : Word :=
  match tl with
  | [] => []
  | t :: ts => detokGo t ts

/-- `deparse(s_expr)` of the source. -/
def deparse (e : SExpr) : Except Err Word :=
  (writeToTokens e).map detokenize

/-! ## Parser -/

mutual

/-- `read_from_tokens(token_list)` of the source, with the front-popping
made explicit: returns the expression and the remaining tokens.  Empty
input fails with `SyntaxError('unexpected EOF')`; a bare `)` with
`SyntaxError('unexpected )')`.  The structural `fuel` argument only
bounds recursion depth; every call consumes a token before both
recursions, so the depth is at most twice the token count and the fuel
`parse` supplies is never exhausted. -/
def readExpr (fuel : ℕ) (ts : List Word) :
    Except Err (SExpr × List Word) :=
  match fuel with
  | 0 => .error .syntaxEOF                    -- never reached from `parse`
  | fuel + 1 =>
      match ts with
      | [] => .error .syntaxEOF
      | t :: rest =>
          if t = W "(" then
            (readSeq fuel rest).map (fun p => (.form p.1, p.2))
          else if t = W ")" then .error .syntaxClose
          else (atomize t).map ((·, rest))

/-- The `while token_list[0] != ')'` loop of `read_from_tokens`,
consuming the closing `)`.  Exhausting the tokens mid-form fails on
`token_list[0]` (`IndexError`, as in the source). -/
def readSeq (fuel : ℕ) (ts : List Word) :
    Except Err (List SExpr × List Word) :=
  match fuel with
  | 0 => .error .syntaxEOF                    -- never reached from `parse`
  | fuel + 1 =>
      match ts with
      | [] => .error .indexError
      | t :: rest =>
          if t = W ")" then .ok ([], rest)
          else do
            let (e, r1) ← readExpr fuel (t :: rest)
            let (es, r2) ← readSeq fuel r1
            .ok (e :: es, r2)

end

/-- What one `write_to_file` call puts on disk: the ops file (one
serialized command per line, undo stack in order) and the metadata
sidecar `<path>.yaml` holding `uuid` and `label_hash`. -/
structure FileWrite : Type where
  path : Word
  lines : List Word
  mdPath : Word
  mdUuid : Word
  mdHash : Word
deriving DecidableEq, Repr

/-- `write_to_file(file=None)` of the source: a truthy argument replaces
`self.file` first; then the undo stack is serialized to `self.file` and
the metadata to `self.file + '.yaml'`. -/
def write_to_file (s : CorrectionStack) (file : Option Word) :
    Except Err (CorrectionStack × FileWrite) :=
  let s' := match file with
    | some f => if f = [] then s else { s with file := f }
    | none => s
  (s'.undo_stack.mapM deparse).map (fun lines =>
    (s', { path := s'.file, lines := lines,
           mdPath := s'.file ++ W ".yaml",
           mdUuid := s'.uuid, mdHash := s'.label_hash }))

/-- `__exit__(exc_type, exc_value, exc_trace)` of the source: on a clean
exit, write to the configured ops file and return `True`; when the block
raised, write to `self.file + '.bak'` instead and return `False`, so the
exception propagates. -/
def csExit (s : CorrectionStack) (excOccurred : Bool) :
    Except Err (CorrectionStack × FileWrite × Bool) :=
  if excOccurred then
    (write_to_file s (some (s.file ++ W ".bak"))).map
      (fun p => (p.1, p.2, false))
  else
    (write_to_file s none).map (fun p => (p.1, p.2, true))

/-! ## Concrete fixtures

Small label sequences and commands used to instantiate the theorems; the
records mirror the repository's own test data
(`{'start': 1.0, 'stop': 2.1, 'name': 'a'}`, …). -/

def recA : Rec :=
  [(W "start", .flt false 1 [0]), (W "stop", .flt false 2 [1]),
   (W "name", .str (W "a"))]

def recB : Rec :=
  [(W "start", .flt false 2 [1]), (W "stop", .flt false 3 [5]),
   (W "name", .str (W "b"))]

def recC : Rec :=
  [(W "start", .flt false 3 [5]), (W "stop", .flt false 4 [2]),
   (W "name", .str (W "c"))]

/-- The record `{4.7, 5.0, 'd'}` of the spec's split example. -/
def rec47 : Rec :=
  [(W "start", .flt false 4 [7]), (W "stop", .flt false 5 [0]),
   (W "name", .str (W "d"))]

def labels3 : Labels := [recA, recB, recC]

/-- A fresh stack owning `labels3` (no commands yet). -/
def cs0 : CorrectionStack :=
  ⟨labels3, [], [], W "ops", W "u-0", W "f00f"⟩

/-- The command `codegen_rename(0, 'q')` generates from `labels3`. -/
def cmdRen : SExpr :=
  .form [.sym (W "set_name"), .key (W "labels"), .sym (W "labels"),
         .key (W "target"),
         .form [.sym (W "interval"), .key (W "index"), .val (.int 0),
                .key (W "name"), .val (.str (W "a"))],
         .key (W "new_name"), .val (.str (W "q"))]

/-- A stack holding one executed command. -/
def csW : CorrectionStack :=
  ⟨labels3, [cmdRen], [], W "ops", W "u-0", W "f00f"⟩

/-- The serialized form of `cmdRen`. -/
def linesW : List Word :=
  [W "(set-name #:labels labels #:target (interval #:index 0 #:name \"a\") #:new-name \"q\")"]

/-- A `target` record addressing index `0`. -/
def tgt47 : Rec := [(W "index", .int 0)]

/-- Split keywords placing the boundary at `1.0` (outside `{4.7, 5.0}`). -/
def kw10 : SKw :=
  [(W "new_name", .v (.str (W "d"))), (W "new_stop", .v (.flt false 1 [0])),
   (W "new_next_start", .v (.flt false 1 [0])),
   (W "new_next_name", .v (.str (W "e")))]

/-- Split keywords placing the boundary at `4.8` (inside `{4.7, 5.0}`). -/
def kw48 : SKw :=
  [(W "new_name", .v (.str (W "d"))), (W "new_stop", .v (.flt false 4 [8])),
   (W "new_next_start", .v (.flt false 4 [8])),
   (W "new_next_name", .v (.str (W "e")))]

/-- Is this element usable verbatim as a keyword-argument name?  Python
accepts any `str` — `Symbol`s and `KeyArg`s included — as a `**kwargs`
key; numbers, `None` and sub-forms are not strings. -/
def strLike (e : SExpr) : Bool :=
  match e with
  | .sym _ => true
  | .key _ => true
  | .val (.str _) => true
  | _ => false

/-- A delete command whose argument-name positions hold plain `Symbol`s
(not `KeyArg`s): every name slot is a positional, non-keyword element. -/
def cmdAllSym : SExpr :=
  .form [.sym (W "delete"), .sym (W "labels"), .sym (W "labels"),
         .sym (W "target"),
         .form [.sym (W "interval"), .sym (W "index"), .val (.int 0)]]

/-! ## Serializable trees

The class of command trees whose serialization survives the tokenizer:
names are lowercase/underscore identifiers other than the reserved
spellings `null`, `inf`, `infinity` and `nan` (whose tokens `atomize`
reads back as values, not `Symbol`s), strings avoid the quote and
closing-paren characters and hold only single interior spaces, values
are finite, and every form has a symbol head plus at least one further
element (every tree `_gen_code` builds is of this shape whenever its
labels' column names and string values are). -/

/-- A lowercase ASCII letter. -/
def lowerCh (c : Char) : Bool := 97 ≤ c.toNat && c.toNat ≤ 122

/-- The identifiers whose hyphenated token `float()` accepts, so that
`atomize` returns a non-finite float rather than a `Symbol`. -/
def floatName (s : Word) : Bool :=
  s = W "inf" || s = W "infinity" || s = W "nan"

/-- A name the hyphen/underscore conversion round-trips: nonempty,
leading letter, then letters and underscores. -/
def goodName : Word → Bool
  | [] => false
  | c :: cs => lowerCh c && cs.all (fun ch => lowerCh ch || ch = '_')

/-- A character the tokenizer can keep inside a quoted string: not the
quote, not the closing paren, and no whitespace other than the space. -/
def goodStrChar (c : Char) : Bool :=
  !(c = '"') && !(c = ')') && (!(isWs c) || c = ' ')

/-- String content the space-split/quote-merge passes reassemble
verbatim: good characters, never two spaces in a row. -/
def goodStr : Word → Bool
  | [] => true
  | [c] => goodStrChar c
  | c :: c' :: rest =>
      goodStrChar c && !(c = ' ' && c' = ' ') && goodStr (c' :: rest)

mutual

/-- Serializable trees (see the section comment). -/
def goodS : SExpr → Bool
  | .val .null => true
  | .val (.int _) => true
  | .val (.flt _ _ _) => true
  | .val (.inf _) => false
  | .val .nan => false
  | .val (.str s) => goodStr s
  | .sym s => goodName s && !(s = W "null") && !floatName s
  | .key s => goodName s
  | .form es =>
      match es with
      | .sym h :: e :: rest =>
          goodName h && !(h = W "null") && !floatName h && goodL (e :: rest)
      | _ => false

def goodL : List SExpr → Bool
  | [] => true
  | e :: es => goodS e && goodL es

end

/-- The token of an atom (`[]` on the failing inputs `goodS` excludes). -/
def tokA (e : SExpr) : Word :=
  match deatomize e with
  | .ok w => w
  | .error _ => []

mutual

/-- The whitespace-separated chunks `detokenize` prints for a tree whose
serialization is followed by `k` closing parens: each form contributes a
`(name` chunk, each closing paren glues onto the previous chunk, every
other token is a chunk of its own. -/
def chunksT : SExpr → ℕ → List Word
  | .form es, k =>
      match es with
      | e₀ :: e₁ :: rest => ('(' :: tokA e₀) :: chunksL (e₁ :: rest) (k + 1)
      | _ => []
  | a, k => [tokA a ++ List.replicate k ')']

def chunksL : List SExpr → ℕ → List Word
  | [], _ => []
  | [e], k => chunksT e k
  | e :: e' :: rest, k => chunksT e 0 ++ chunksL (e' :: rest) k

end

/-- Join words with single spaces (the shape `detokGo` produces). -/
def joinWords : List Word → Word
  | [] => []
  | [w] => w
  | w :: ws => w ++ ' ' :: joinWords ws

/-- Split at every space, keeping empty pieces (unlike `splitWs`). -/
def spacePieces : Word → List Word
  | [] => [[]]
  | c :: rest =>
      if c = ' ' then [] :: spacePieces rest
      else match spacePieces rest with
        | [] => [[c]]
        | p :: ps => (c :: p) :: ps

/-- The word-grouping `detokGo` performs, as a list of words: a `)` or a
token following a chunk that ends in `(` glues on, everything else opens
a new chunk. -/
def gluedGo (cur : Word) (ts : List Word) : List Word :=
  match ts with
  | [] => [cur]
  | t :: rest =>
      if ¬ t = W ")" ∧ ¬ cur.getLast? = some '(' then cur :: gluedGo t rest
      else gluedGo (cur ++ t) rest

/-- The chunks of a whole token list. -/
def tailG : List Word → List Word
  | [] => []
  | t :: ts => gluedGo t ts

/-- A chunk the quote-merging pass emits verbatim: feeding its
space-split pieces to `secondPassGo` outside a string region just
appends the chunk and returns to the outside state. -/
def goodChunk (w : Word) : Prop :=
  ∀ rest acc,
    secondPassGo (splitWs w ++ rest) false acc = secondPassGo rest false (w :: acc)

/-- Append a word onto the last piece (`[b]` when there is none). -/
def appendLast (ps : List Word) (b : Word) : List Word :=
  match ps with
  | [] => [b]
  | [p] => [p ++ b]
  | p :: ps => p :: appendLast ps b

/-! ## Theorems -/

/-- **C2, counterexample.**  The claim says `undo()` with nothing applied
never raises and is a no-op; in the code, `undo()` on a fresh stack pops
an empty deque and raises `IndexError`. -/
theorem c2_cex_undo_raises : cs0.undo = .error .indexError := rfl

/-- **C2, amended**: `undo()` with an empty undo stack and `redo()` with
an empty redo stack raise `IndexError` (as their docstrings state), and
`peek(i)` with `i` outside deque range also raises `IndexError` — none of
them is a no-op and no null sentinel is returned. -/
theorem c2_amended_bounds_raise (s : CorrectionStack) :
    (s.undo_stack = [] → s.undo = .error .indexError) ∧
    (s.redo_stack = [] → s.redo = .error .indexError) ∧
    (∀ i : ℤ, i < -(s.undo_stack.length : ℤ) ∨ (s.undo_stack.length : ℤ) ≤ i →
      s.peek i = .error .indexError) := by
  refine ⟨fun h => ?_, fun h => ?_, fun i hi => ?_⟩
  · simp [CorrectionStack.undo, h]
  · simp [CorrectionStack.redo, h]
  · simp only [CorrectionStack.peek, pyGet, pyIdx]
    rcases hi with hi | hi
    · rw [if_neg (by omega), if_neg (by omega)]
    · rw [if_pos (by omega), if_neg (by omega)]

/-- **C2, witness**: the amended statement at the fresh stack `cs0` and
index `5`. -/
theorem c2_amended_witness :
    cs0.undo = .error .indexError ∧ cs0.redo = .error .indexError ∧
      cs0.peek 5 = .error .indexError := by
  obtain ⟨h1, h2, h3⟩ := c2_amended_bounds_raise cs0
  exact ⟨h1 rfl, h2 rfl, h3 5 (by decide)⟩

/-- **C10.**  As a context manager: when the block exits normally,
`__exit__` writes the serialized undo stack to the configured ops file
(with the `uuid`/`label_hash` metadata in the `.yaml` sidecar) and returns
`True`; when the block raised, everything is written to `ops_file + '.bak'`
instead (sidecar `ops_file + '.bak.yaml'`) and `__exit__` returns `False`,
so the exception propagates to the caller. -/
theorem c10_exit_writes (s : CorrectionStack) (lines : List Word)
    (h : s.undo_stack.mapM deparse = .ok lines) :
    csExit s false =
      .ok (s, ⟨s.file, lines, s.file ++ W ".yaml", s.uuid, s.label_hash⟩, true) ∧
    csExit s true =
      .ok ({ s with file := s.file ++ W ".bak" },
           ⟨s.file ++ W ".bak", lines, (s.file ++ W ".bak") ++ W ".yaml",
            s.uuid, s.label_hash⟩, false) := by
  have hne : ¬(s.file ++ W ".bak" = []) := by simp [W]
  have h' : List.mapM.loop deparse s.undo_stack [] = .ok lines := h
  constructor
  · simp [csExit, write_to_file, h', Except.map]
  · simp [csExit, write_to_file, hne, h', Except.map]

/-- **C10, witness**: the statement at a concrete one-command stack. -/
theorem c10_exit_writes_witness :
    csExit csW false =
      .ok (csW, ⟨csW.file, linesW, csW.file ++ W ".yaml",
                 csW.uuid, csW.label_hash⟩, true) :=
  (c10_exit_writes csW linesW (by decide)).1

/-- One inversion-loop step keeps the element list's length. -/
theorem invStep_length {jt : ℕ} {es : List SExpr} {i : ℕ} {es' : List SExpr}
    (h : invStep jt es i = .ok es') : es'.length = es.length := by
  unfold invStep at h
  split at h
  · split at h
    · split at h
      · split at h
        · cases h
        · split at h
          · cases h; simp
          · cases h
          · cases h
      · cases h
      · cases h
    · cases h; rfl
  · cases h; rfl

/-- One inversion-loop step never touches position `0` (it writes only at
`jt ≥ 1` and at keyword-value slots `i + 1 ≥ 1`). -/
theorem invStep_get0 {jt : ℕ} {es : List SExpr} {i : ℕ} {es' : List SExpr}
    (hjt1 : 1 ≤ jt) (h : invStep jt es i = .ok es') : es'.get? 0 = es.get? 0 := by
  unfold invStep at h
  split at h
  · split at h
    · split at h
      · split at h
        · cases h
        · split at h
          · cases h
            rw [List.get?_eq_getElem?, List.get?_eq_getElem?]
            rw [List.getElem?_set_ne (by omega), List.getElem?_set_ne (by omega)]
          · cases h
          · cases h
      · cases h
      · cases h
    · cases h; rfl
  · cases h; rfl

/-- The whole inversion loop keeps length and head. -/
theorem invIter_length_get0 {jt : ℕ} (hjt1 : 1 ≤ jt) :
    ∀ (idxs : List ℕ) (es es' : List SExpr), invIter jt idxs es = .ok es' →
      es'.length = es.length ∧ es'.get? 0 = es.get? 0 := by
  intro idxs
  induction idxs with
  | nil => intro es es' h; cases h; exact ⟨rfl, rfl⟩
  | cons i rest ih =>
      intro es es' h
      unfold invIter at h
      rcases hs : invStep jt es i with e | es₁
      · rw [hs] at h; cases h
      · rw [hs] at h
        obtain ⟨h1, h2⟩ := ih es₁ es' h
        exact ⟨h1.trans (invStep_length hs), h2.trans (invStep_get0 hjt1 hs)⟩

/-- **C3, counterexample.**  The claim says `invert(C)` never mutates `C`
and that `C` compares equal to its prior value afterwards.  For the
rename command the generators build from `labels3` (`cmdRen`), the
argument that comes back out of `invert` differs from `cmdRen`: the swap
loop wrote the pre-state name into its `new_name` slot in place. -/
theorem c3_cex_invert_mutates_argument :
    codegenRename labels3 0 (.str (W "q")) = .ok cmdRen ∧
      (invert cmdRen).map (·.2) ≠ .ok cmdRen :=
  ⟨by decide, by decide⟩

/-- **C3, amended**: `invert` does build a fresh top-level tree, but it
mutates its argument in place: whenever `invert(C)` succeeds, the
argument is left holding exactly the inverse's element list (each
`new_<f>` keyword value swapped with the `target` `<f>` value) under the
*original* head, i.e. the mutated `C` and the returned tree share their
entire tail, and `C` keeps only its head. -/
theorem c3_amended_invert_swaps_in_place (e inv mutArg : SExpr)
    (h : invert e = .ok (inv, mutArg)) :
    ∃ es hd w ts, e = .form es ∧ es.get? 0 = some hd ∧
      inv = .form (.sym w :: ts) ∧ mutArg = .form (hd :: ts) := by
  cases e with
  | val v => simp [invert] at h
  | sym s => simp [invert] at h
  | key s => simp [invert] at h
  | form es =>
      unfold invert at h
      rcases h0 : es.get? 0 with _ | hd
      · simp only [h0] at h; cases h
      · rcases hop : opName hd with er | op
        · simp only [h0, hop] at h; cases h
        · rcases hinv : INVERSE_TABLE op with _ | w
          · simp only [h0, hop, hinv] at h; cases h
          · rcases hj : pyIndexList es (W "target") with _ | j
            · simp only [h0, hop, hinv, hj] at h; cases h
            · rcases hjx : es.get? (j + 1) with _ | x
              · simp only [h0, hop, hinv, hj, hjx] at h; cases h
              · rcases hiter : invIter (j + 1) (List.range es.length) es with er | es'
                · simp only [h0, hop, hinv, hj, hjx, hiter] at h; cases h
                · simp only [h0, hop, hinv, hj, hjx, hiter, Except.ok.injEq,
                    Prod.mk.injEq] at h
                  obtain ⟨hinv', hmut⟩ := h
                  obtain ⟨hlen, hget0⟩ :=
                    invIter_length_get0 (by omega) (List.range es.length) es es' hiter
                  rw [h0] at hget0
                  cases es' with
                  | nil => simp at hget0
                  | cons a tl =>
                      simp only [List.get?] at hget0
                      cases hget0
                      refine ⟨es, hd, w, tl, rfl, h0, ?_, ?_⟩
                      · rw [← hinv']; simp
                      · rw [← hmut]

/-- **C3, amended, witness**: the relation at the concrete `cmdRen`. -/
theorem c3_amended_witness :
    ∃ es hd w ts, cmdRen = .form es ∧ es.get? 0 = some hd ∧
      SExpr.form (.sym (W "set_name") ::
        [.key (W "labels"), .sym (W "labels"), .key (W "target"),
         .form [.sym (W "interval"), .key (W "index"), .val (.int 0),
                .key (W "name"), .val (.str (W "q"))],
         .key (W "new_name"), .val (.str (W "a"))]) = .form (.sym w :: ts) ∧
      SExpr.form (hd :: ts) = .form (hd :: ts) := by
  obtain ⟨es, hd, w, ts, h1, h2, h3, h4⟩ :=
    c3_amended_invert_swaps_in_place cmdRen
      (.form (.sym (W "set_name") ::
        [.key (W "labels"), .sym (W "labels"), .key (W "target"),
         .form [.sym (W "interval"), .key (W "index"), .val (.int 0),
                .key (W "name"), .val (.str (W "q"))],
         .key (W "new_name"), .val (.str (W "a"))]))
      (.form (.sym (W "set_name") ::
        [.key (W "labels"), .sym (W "labels"), .key (W "target"),
         .form [.sym (W "interval"), .key (W "index"), .val (.int 0),
                .key (W "name"), .val (.str (W "q"))],
         .key (W "new_name"), .val (.str (W "a"))]))
      (by decide)
  exact ⟨es, hd, w, ts, h1, h2, h3, rfl⟩

/-! ### Small `Except` and Python-indexing lemmas -/

theorem ok_bind {e a b : Type} (x : a) (f : a → Except e b) :
    (Except.ok x >>= f) = f x := rfl

theorem pyIdx_ofNat {i n : ℕ} (h : i < n) : pyIdx (i : ℤ) n = some i := by
  unfold pyIdx
  rw [if_pos (by omega), if_pos (by exact_mod_cast h)]
  simp

theorem pyGet_ofNat {a : Type} {l : List a} {i : ℕ} {x : a}
    (h : l.get? i = some x) : pyGet l (i : ℤ) = .ok x := by
  rcases List.get?_eq_some.mp h with ⟨hlt, hget⟩
  simp only [pyGet, pyIdx_ofNat hlt]
  rw [dif_pos hlt, hget]

theorem pyModify_ofNat {a : Type} {l : List a} {i : ℕ} {x : a}
    (h : l.get? i = some x) (f : a → Except Err a) :
    pyModify l (i : ℤ) f = (f x).map (fun b => l.set i b) := by
  rcases List.get?_eq_some.mp h with ⟨hlt, _⟩
  simp only [pyModify, pyIdx_ofNat hlt, pyGet_ofNat h, ok_bind]
  cases f x <;> rfl

theorem pyPop_ofNat {a : Type} {l : List a} {i : ℕ} {x : a}
    (h : l.get? i = some x) :
    pyPop l (i : ℤ) = .ok (x, l.take i ++ l.drop (i + 1)) := by
  rcases List.get?_eq_some.mp h with ⟨hlt, _⟩
  simp only [pyPop, pyIdx_ofNat hlt, pyGet_ofNat h, ok_bind]

theorem pyInsert_ofNat {a : Type} {l : List a} {i : ℕ} (x : a)
    (h : i ≤ l.length) :
    pyInsert l (i : ℤ) x = l.take i ++ x :: l.drop i := by
  unfold pyInsert
  rw [if_pos (by omega)]
  simp [min_eq_left h]

/-! ### C6: the split primitive's domain check -/

/-- The write loop of `_split` sends each `new_<f>` keyword value to the
original record and each `new_next_<f>` keyword value (prefix stripped)
to the clone, in keyword order. -/
theorem splitWrites_spec (kw : SKw) :
    ∀ (r c : Rec), (∀ p ∈ kw, ∃ x, p.2 = RVal.v x) →
    splitWrites kw r c = .ok
      ((kw.filterMap fun p =>
          if p.1.take 9 = W "new_next_" then none
          else if p.1.take 4 = W "new_" then
            match p.2 with | .v x => some (p.1.drop 4, x) | _ => none
          else none).foldl (fun acc q => dset acc q.1 q.2) r,
       (kw.filterMap fun p =>
          if p.1.take 9 = W "new_next_" then
            match p.2 with | .v x => some (p.1.drop 9, x) | _ => none
          else none).foldl (fun acc q => dset acc q.1 q.2) c) := by
  induction kw with
  | nil => intro r c _; rfl
  | cons p rest ih =>
      intro r c hv
      obtain ⟨x, hx⟩ := hv p (by simp)
      obtain ⟨k, v⟩ := p
      simp only at hx
      subst hx
      by_cases h9 : k.take 9 = W "new_next_"
      · simp only [splitWrites, List.filterMap_cons]
        rw [if_pos h9, if_pos h9, if_pos h9]
        simp only [asVal, ok_bind, List.foldl_cons]
        exact ih r (dset c (k.drop 9) x) (fun q hq => hv q (by simp [hq]))
      · by_cases h4 : k.take 4 = W "new_"
        · simp only [splitWrites, List.filterMap_cons]
          rw [if_neg h9, if_pos h4, if_neg h9, if_pos h4, if_neg h9]
          simp only [asVal, ok_bind, List.foldl_cons]
          exact ih (dset r (k.drop 4) x) c (fun q hq => hv q (by simp [hq]))
        · simp only [splitWrites, List.filterMap_cons]
          rw [if_neg h9, if_neg h4, if_neg h9, if_neg h4, if_neg h9]
          exact ih r c (fun q hq => hv q (by simp [hq]))

/-- **C6.**  The split primitive fails with a domain violation
(`ValueError`) exactly when `new_stop ≤ labels[i].start` or
`new_next_start ≥ labels[i].stop`, both checked against the targeted
record's original bounds; the check precedes every write, so a failing
call leaves the label sequence untouched.  On success the original
record receives the `new_*` values, and a clone of it carrying the
`new_next_*` values (prefix stripped) is inserted at position `i + 1`. -/
theorem c6_split_domain_check (L : Labels) (i : ℕ) (r : Rec)
    (hL : L.get? i = some r) (target : Rec)
    (hidx : dget target (W "index") = some (.int (i : ℤ))) (kw : SKw)
    (vns vnns vst vsp : Val) (qns qnns qst qsp : ℚ)
    (hns : kwGet kw (W "new_stop") = .ok (.v vns))
    (hqns : vns.toRat? = some qns)
    (hnns : kwGet kw (W "new_next_start") = .ok (.v vnns))
    (hqnns : vnns.toRat? = some qnns)
    (hst : dget r (W "start") = some vst) (hqst : vst.toRat? = some qst)
    (hsp : dget r (W "stop") = some vsp) (hqsp : vsp.toRat? = some qsp)
    (hkv : ∀ p ∈ kw, ∃ x, p.2 = RVal.v x) :
    (_split L target kw = .error .valueError ↔ qns ≤ qst ∨ qsp ≤ qnns) ∧
    (qst < qns → qnns < qsp →
      ∃ rec' clone,
        splitWrites kw r r = .ok (rec', clone) ∧
        _split L target kw =
          .ok ((L.set i rec').take (i + 1) ++
                clone :: (L.set i rec').drop (i + 1)) ∧
        rec' = (kw.filterMap fun p =>
                if p.1.take 9 = W "new_next_" then none
                else if p.1.take 4 = W "new_" then
                  match p.2 with | .v x => some (p.1.drop 4, x) | _ => none
                else none).foldl (fun acc q => dset acc q.1 q.2) r ∧
        clone = (kw.filterMap fun p =>
                if p.1.take 9 = W "new_next_" then
                  match p.2 with | .v x => some (p.1.drop 9, x) | _ => none
                else none).foldl (fun acc q => dset acc q.1 q.2) r) := by
  have hlen : i < L.length := (List.get?_eq_some.mp hL).1
  have htgt : tgtIndex target = .ok (i : ℤ) := by
    simp only [tgtIndex, hidx, exO, ok_bind]
  have hw := splitWrites_spec kw r r hkv
  have hbase : _split L target kw =
      if qst < qns then
        if qnns < qsp then
          .ok ((L.set i ((kw.filterMap fun p =>
                if p.1.take 9 = W "new_next_" then none
                else if p.1.take 4 = W "new_" then
                  match p.2 with | .v x => some (p.1.drop 4, x) | _ => none
                else none).foldl (fun acc q => dset acc q.1 q.2) r)).take (i + 1) ++
              ((kw.filterMap fun p =>
                if p.1.take 9 = W "new_next_" then
                  match p.2 with | .v x => some (p.1.drop 9, x) | _ => none
                else none).foldl (fun acc q => dset acc q.1 q.2) r) ::
              (L.set i ((kw.filterMap fun p =>
                if p.1.take 9 = W "new_next_" then none
                else if p.1.take 4 = W "new_" then
                  match p.2 with | .v x => some (p.1.drop 4, x) | _ => none
                else none).foldl (fun acc q => dset acc q.1 q.2) r)).drop (i + 1))
        else .error .valueError
      else .error .valueError := by
    simp only [_split, hns, ok_bind, htgt, pyGet_ofNat hL, dgetE, hst, hsp, exO,
      asNum, hqns, hqnns, hqst, hqsp]
    by_cases hgt : qst < qns
    · rw [if_pos (show qns > qst from hgt), if_pos hgt]
      simp only [hnns, ok_bind, asNum, exO, hqnns, hqsp, dgetE]
      by_cases hlt : qnns < qsp
      · rw [if_pos hlt, decide_eq_true hlt]
        simp only [pure, Except.pure, ok_bind, Bool.not_true, Bool.false_eq_true,
          if_false, hw, pyModify_ofNat hL, Except.map]
        have hcast : (i : ℤ) + 1 = ((i + 1 : ℕ) : ℤ) := by push_cast; ring
        rw [hcast, pyInsert_ofNat _ (by simp [List.length_set]; omega)]
      · rw [if_neg hlt, decide_eq_false hlt]
        simp only [pure, Except.pure, ok_bind, Bool.not_false, if_true]
    · rw [if_neg (show ¬qns > qst from hgt), if_neg hgt]
      simp only [pure, Except.pure, ok_bind, Bool.not_false, if_true]
  constructor
  · rw [hbase]
    by_cases hgt : qst < qns
    · rw [if_pos hgt]
      by_cases hlt : qnns < qsp
      · rw [if_pos hlt]
        constructor
        · intro hc; cases hc
        · intro hc
          rcases hc with hc | hc
          · exact absurd hgt (not_lt.mpr hc)
          · exact absurd hlt (not_lt.mpr hc)
      · rw [if_neg hlt]
        exact ⟨fun _ => Or.inr (not_lt.mp hlt), fun _ => rfl⟩
    · rw [if_neg hgt]
      exact ⟨fun _ => Or.inl (not_lt.mp hgt), fun _ => rfl⟩
  · intro hgt hlt
    refine ⟨_, _, hw, ?_, rfl, rfl⟩
    rw [hbase, if_pos hgt, if_pos hlt]

/-- **C6, witness**: the spec's own example — splitting `{4.7, 5.0, 'd'}`
at `1.0` fails with the domain violation; splitting at `4.8` succeeds and
produces adjacent records sharing the boundary `4.8`. -/
theorem c6_split_witness :
    _split [rec47] tgt47 kw10 = .error .valueError ∧
    _split [rec47] tgt47 kw48 =
      .ok [[(W "start", .flt false 4 [7]), (W "stop", .flt false 4 [8]),
            (W "name", .str (W "d"))],
           [(W "start", .flt false 4 [8]), (W "stop", .flt false 5 [0]),
            (W "name", .str (W "e"))]] := by
  constructor
  · exact (c6_split_domain_check [rec47] 0 rec47 (by rfl) tgt47 (by decide) kw10
      (.flt false 1 [0]) (.flt false 1 [0]) (.flt false 4 [7]) (.flt false 5 [0])
      1 1 (47/10) 5
      (by decide)
      (by norm_num [Val.toRat?, fltVal, show ((0 : Fin 10) : ℕ) = 0 from rfl])
      (by decide)
      (by norm_num [Val.toRat?, fltVal, show ((0 : Fin 10) : ℕ) = 0 from rfl])
      (by decide)
      (by norm_num [Val.toRat?, fltVal, show ((7 : Fin 10) : ℕ) = 7 from rfl])
      (by decide)
      (by norm_num [Val.toRat?, fltVal, show ((0 : Fin 10) : ℕ) = 0 from rfl])
      (by intro p hp; simp only [kw10, List.mem_cons, List.not_mem_nil, or_false] at hp; rcases hp with rfl | rfl | rfl | rfl <;> exact ⟨_, rfl⟩)).1.mpr
      (Or.inl (by norm_num))
  · obtain ⟨rec', clone, hsw, hres, _, _⟩ :=
      (c6_split_domain_check [rec47] 0 rec47 (by rfl) tgt47 (by decide) kw48
        (.flt false 4 [8]) (.flt false 4 [8]) (.flt false 4 [7]) (.flt false 5 [0])
        (24/5) (24/5) (47/10) 5
        (by decide)
        (by norm_num [Val.toRat?, fltVal, show ((8 : Fin 10) : ℕ) = 8 from rfl])
        (by decide)
        (by norm_num [Val.toRat?, fltVal, show ((8 : Fin 10) : ℕ) = 8 from rfl])
        (by decide)
        (by norm_num [Val.toRat?, fltVal, show ((7 : Fin 10) : ℕ) = 7 from rfl])
        (by decide)
        (by norm_num [Val.toRat?, fltVal, show ((0 : Fin 10) : ℕ) = 0 from rfl])
        (by intro p hp; simp only [kw48, List.mem_cons, List.not_mem_nil, or_false] at hp; rcases hp with rfl | rfl | rfl | rfl <;> exact ⟨_, rfl⟩)).2
        (by norm_num) (by norm_num)
    have hc : splitWrites kw48 rec47 rec47 =
        .ok ([(W "start", .flt false 4 [7]), (W "stop", .flt false 4 [8]),
              (W "name", .str (W "d"))],
             [(W "start", .flt false 4 [8]), (W "stop", .flt false 5 [0]),
              (W "name", .str (W "e"))]) := by decide
    rw [hsw] at hc
    rw [Except.ok.injEq, Prod.mk.injEq] at hc
    obtain ⟨h1, h2⟩ := hc
    subst h1
    subst h2
    exact hres.trans (by decide)

/-! ### C7: the tokenizer on unterminated quote regions -/

theorem splitWsGo_nonws (u : Word) (hu : ∀ c ∈ u, ¬isWs c) :
    ∀ (rest acc : Word),
      splitWsGo (u ++ rest) acc = splitWsGo rest (u.reverse ++ acc) := by
  induction u with
  | nil => intro rest acc; rfl
  | cons c u' ih =>
      intro rest acc
      have hc : ¬isWs c := hu c (by simp)
      have hu' : ∀ d ∈ u', ¬isWs d := fun d hd => hu d (by simp [hd])
      simp only [List.cons_append, splitWsGo]
      rw [if_neg hc]
      exact (ih hu' rest (c :: acc)).trans (by simp)

theorem splitWsGo_space (rest : Word) (acc : Word) (hacc : acc ≠ []) :
    splitWsGo (' ' :: rest) acc = acc.reverse :: splitWsGo rest [] := by
  simp only [splitWsGo, isWs]
  rw [if_pos (by simp), if_neg hacc]

theorem splitWs_single (u : Word) (hu : ∀ c ∈ u, ¬isWs c) (hne : u ≠ []) :
    splitWs u = [u] := by
  have h := splitWsGo_nonws u hu [] []
  rw [List.append_nil] at h
  unfold splitWs
  rw [h]
  simp only [splitWsGo, List.append_nil]
  rw [if_neg (by simpa using hne)]
  simp

theorem krInsert_mem_self (d : RawKw) (k : KeyRep) (x : RVal) :
    ∃ v, (k, v) ∈ krInsert d k x := by
  induction d with
  | nil => exact ⟨x, by simp [krInsert]⟩
  | cons p rest ih =>
      obtain ⟨k', x'⟩ := p
      unfold krInsert
      by_cases hk : k' = k
      · subst hk
        rw [if_pos rfl]
        exact ⟨x, by simp⟩
      · rw [if_neg hk]
        obtain ⟨v, hv⟩ := ih
        exact ⟨v, by simp [hv]⟩

theorem krInsert_mem_preserve {d : RawKw} {k : KeyRep}
    (h : ∃ v, (k, v) ∈ d) (k' : KeyRep) (x : RVal) :
    ∃ v, (k, v) ∈ krInsert d k' x := by
  induction d with
  | nil => simp at h
  | cons p rest ih =>
      obtain ⟨q, xq⟩ := p
      unfold krInsert
      by_cases hk : q = k'
      · subst hk
        rw [if_pos rfl]
        obtain ⟨v, hv⟩ := h
        rcases List.mem_cons.mp hv with hv | hv
        · rw [Prod.mk.injEq] at hv
          exact ⟨x, by simp [hv.1]⟩
        · exact ⟨v, by simp [hv]⟩
      · rw [if_neg hk]
        obtain ⟨v, hv⟩ := h
        rcases List.mem_cons.mp hv with hv | hv
        · exact ⟨xq, by rw [Prod.mk.injEq] at hv; simp [hv.1]⟩
        · obtain ⟨v', hv'⟩ := ih ⟨v, hv⟩
          exact ⟨v', by simp [hv']⟩

theorem callCheck_mem_kval {d : RawKw} {x : Val} {v : RVal}
    (h : (KeyRep.kval x, v) ∈ d) : callCheck d = .error .typeError := by
  induction d with
  | nil => simp at h
  | cons p rest ih =>
      match p with
      | (.kval y, w) => rfl
      | (.kstr s, w) =>
          rcases List.mem_cons.mp h with hv | hv
          · rw [Prod.mk.injEq] at hv
            cases hv.1
          · unfold callCheck
            rw [ih hv]
            rfl

theorem keyRepOf_nonstr {e : SExpr} (h : strLike e = false) :
    keyRepOf e = .error .typeError ∨ ∃ x, keyRepOf e = .ok (.kval x) := by
  cases e with
  | sym s => simp [strLike] at h
  | key s => simp [strLike] at h
  | form es => exact Or.inl rfl
  | val x =>
      cases x with
      | str s => simp [strLike] at h
      | null => exact Or.inr ⟨.null, rfl⟩
      | int n => exact Or.inr ⟨.int n, rfl⟩
      | flt a b c => exact Or.inr ⟨.flt a b c, rfl⟩
      | inf b => exact Or.inr ⟨.inf b, rfl⟩
      | nan => exact Or.inr ⟨.nan, rfl⟩

theorem error_bind {e a b : Type} (x : e) (f : a → Except e b) :
    ((Except.error x : Except e a) >>= f) = .error x := rfl

theorem evalPairs_preserves_key {k : KeyRep} :
    ∀ (args : List SExpr) (acc : RawKw) (L : Labels) (d : RawKw) (L' : Labels),
      (∃ v, (k, v) ∈ acc) → evalPairs args acc L = .ok (d, L') →
      ∃ v, (k, v) ∈ d
  | [], acc, L, d, L', hk, h => by cases h; exact hk
  | [a], acc, L, d, L', hk, h => by
      unfold evalPairs at h
      rcases hkr : keyRepOf a with er | kr <;> rw [hkr] at h
      · cases h
      · rw [ok_bind] at h
        cases h
        exact krInsert_mem_preserve hk kr (.v .null)
  | a :: b :: rest, acc, L, d, L', hk, h => by
      unfold evalPairs at h
      rcases he : evaluate b L with er | p <;> rw [he] at h
      · cases h
      · obtain ⟨xv, L1⟩ := p
        simp only [ok_bind] at h
        rcases hkr : keyRepOf a with er | kr <;>
          simp only [hkr, error_bind, ok_bind] at h
        · cases h
        · exact evalPairs_preserves_key rest (krInsert acc kr xv) L1 d L'
            (krInsert_mem_preserve hk kr xv) h

theorem evalPairs_bad :
    ∀ (i : ℕ) (args : List SExpr) (acc : RawKw) (L : Labels) (e : SExpr),
      args.get? (2 * i) = some e → strLike e = false →
      (∃ er, evalPairs args acc L = .error er) ∨
      (∀ d L', evalPairs args acc L = .ok (d, L') →
         ∃ x v, (KeyRep.kval x, v) ∈ d) := by
  intro i
  induction i with
  | zero =>
      intro args acc L e hget hnot
      match args, hget with
      | e' :: rest, hget => ?_
      simp only [Nat.mul_zero, List.get?] at hget
      cases hget
      match rest with
      | [] =>
          rcases keyRepOf_nonstr hnot with hkr | ⟨x, hkr⟩
          · exact Or.inl ⟨.typeError, by
              unfold evalPairs; rw [hkr, error_bind]⟩
          · refine Or.inr (fun d L' h => ?_)
            unfold evalPairs at h
            rw [hkr, ok_bind] at h
            cases h
            obtain ⟨v, hv⟩ := krInsert_mem_self acc (.kval x) (.v .null)
            exact ⟨x, v, hv⟩
      | b :: rest' =>
          rcases he : evaluate b L with er | p
          · exact Or.inl ⟨er, by
              unfold evalPairs; rw [he, error_bind]⟩
          · obtain ⟨xv, L1⟩ := p
            rcases keyRepOf_nonstr hnot with hkr | ⟨x, hkr⟩
            · exact Or.inl ⟨.typeError, by
                simp only [evalPairs, he, hkr, ok_bind, error_bind]⟩
            · refine Or.inr (fun d L' h => ?_)
              simp only [evalPairs, he, hkr, ok_bind] at h
              obtain ⟨v, hv⟩ := evalPairs_preserves_key rest'
                (krInsert acc (.kval x) xv) L1 d L'
                (krInsert_mem_self acc (.kval x) xv) h
              exact ⟨x, v, hv⟩
  | succ i ih =>
      intro args acc L e hget hnot
      match args, hget with
      | a :: b :: rest, hget => ?_
      have hget' : rest.get? (2 * i) = some e := by
        rw [show 2 * (i + 1) = 2 * i + 1 + 1 by ring] at hget
        simpa using hget
      rcases he : evaluate b L with er | p
      · exact Or.inl ⟨er, by
          unfold evalPairs; rw [he, error_bind]⟩
      · obtain ⟨xv, L1⟩ := p
        rcases hkr : keyRepOf a with er | kr
        · exact Or.inl ⟨er, by
            simp only [evalPairs, he, hkr, ok_bind, error_bind]⟩
        · rcases ih rest (krInsert acc kr xv) L1 e hget' hnot with hl | hr
          · obtain ⟨er, her⟩ := hl
            exact Or.inl ⟨er, by
              simp only [evalPairs, he, hkr, her, ok_bind]⟩
          · refine Or.inr (fun d L' h => ?_)
            simp only [evalPairs, he, hkr, ok_bind] at h
            exact hr d L' h

/-- **C9, counterexample.**  The claim says a positional (non-keyword)
element where a keyword-name is expected makes evaluation fail.  In
`cmdAllSym` every argument-name slot is a plain `Symbol` (`labels`,
`target`, `index`) rather than a `KeyArg`, yet evaluation succeeds and
deletes record 0: names are taken verbatim, and any string — `Symbol`s
included — is accepted as a keyword. -/
theorem c9_cex_symbols_accepted :
    evaluate cmdAllSym labels3 = .ok (.v .null, [recB, recC]) := by decide

/-- **C9, amended**: the elements after a form's head are read as
alternating (name, value) pairs with the name taken verbatim; evaluation
fails only when an argument-name position holds something that is not a
string at all — a number, `null` or a sub-form — (or when the names do
not fit the callable); a `Symbol` or quoted string that matches an
expected parameter name is accepted. -/
theorem c9_amended_nonstring_name_fails (L : Labels) (hd : SExpr)
    (args : List SExpr) (i : ℕ) (e : SExpr)
    (hget : args.get? (2 * i) = some e) (hnot : strLike e = false) :
    ∃ er, evaluate (.form (hd :: args)) L = .error er := by
  rcases hh : evaluate hd L with er | p
  · exact ⟨er, by simp only [evaluate, hh, error_bind]⟩
  · obtain ⟨procv, L1⟩ := p
    rcases evalPairs_bad i args [] L1 e hget hnot with ⟨er, her⟩ | hr
    · exact ⟨er, by simp only [evaluate, hh, ok_bind, her, error_bind]⟩
    · rcases hep : evalPairs args [] L1 with er | q
      · exact ⟨er, by simp only [evaluate, hh, ok_bind, hep, error_bind]⟩
      · obtain ⟨d, L2⟩ := q
        obtain ⟨x, v, hmem⟩ := hr d L2 hep
        cases procv with
        | prim pp =>
            exact ⟨.typeError, by
              simp only [evaluate, hh, ok_bind, hep,
                callCheck_mem_kval hmem, error_bind]⟩
        | v xx =>
            exact ⟨.typeError, by
              simp only [evaluate, hh, ok_bind, hep]⟩
        | dict r =>
            exact ⟨.typeError, by
              simp only [evaluate, hh, ok_bind, hep]⟩
        | labelsRef =>
            exact ⟨.typeError, by
              simp only [evaluate, hh, ok_bind, hep]⟩

/-- **C9, amended, witness**: a number in an argument-name position
makes evaluation fail. -/
theorem c9_amended_witness :
    ∃ er, evaluate (.form [.sym (W "delete"), .val (.int 3), .val .null])
            labels3 = .error er :=
  c9_amended_nonstring_name_fails labels3 (.sym (W "delete"))
    [.val (.int 3), .val .null] 0 (.val (.int 3)) rfl rfl

/-! ### Dictionary lemmas -/

theorem dget_nil (x : Word) : dget [] x = none := rfl

theorem dget_cons (k : Word) (v : Val) (rest : Rec) (x : Word) :
    dget ((k, v) :: rest) x = if k = x then some v else dget rest x := by
  simp only [dget, List.find?_cons]
  by_cases h : k = x
  · simp [h]
  · simp [h]

theorem dget_dset_self (t : Rec) (x : Word) (v : Val) :
    dget (dset t x v) x = some v := by
  induction t with
  | nil => simp [dset, dget_cons]
  | cons p rest ih =>
      obtain ⟨k, w⟩ := p
      unfold dset
      by_cases hk : k = x
      · rw [if_pos hk, dget_cons, if_pos hk]
      · rw [if_neg hk, dget_cons, if_neg hk]
        exact ih

theorem dget_dset_ne (t : Rec) {x y : Word} (v : Val) (h : ¬ y = x) :
    dget (dset t x v) y = dget t y := by
  induction t with
  | nil =>
      show dget [(x, v)] y = dget [] y
      rw [dget_cons, dget_nil, if_neg (fun hc : x = y => h hc.symm)]
  | cons p rest ih =>
      obtain ⟨k, w⟩ := p
      unfold dset
      by_cases hk : k = x
      · rw [if_pos hk, dget_cons, dget_cons]
        subst hk
        rw [if_neg (fun hc : k = y => h hc.symm),
            if_neg (fun hc : k = y => h hc.symm)]
      · rw [if_neg hk, dget_cons, dget_cons, ih]

theorem dset_dset_same (t : Rec) (x : Word) (u w : Val) :
    dset (dset t x u) x w = dset t x w := by
  induction t with
  | nil => simp [dset]
  | cons p rest ih =>
      obtain ⟨k, v⟩ := p
      unfold dset
      by_cases hk : k = x
      · rw [if_pos hk]; simp [dset, hk]
      · rw [if_neg hk]; simp [dset, hk, ih]

theorem dset_dset_comm {t : Rec} {x y : Word} (u w : Val) (h : ¬ x = y)
    (hx : x ∈ dkeys t) :
    dset (dset t x u) y w = dset (dset t y w) x u := by
  induction t with
  | nil => simp [dkeys] at hx
  | cons p rest ih =>
      obtain ⟨k, v⟩ := p
      by_cases hkx : k = x
      · subst hkx
        simp [dset, h, fun hc : k = y => h hc]
      · have hx' : x ∈ dkeys rest := by
          rcases List.mem_cons.mp hx with hx | hx
          · exact absurd hx.symm hkx
          · exact hx
        by_cases hky : k = y
        · subst hky
          simp [dset, hkx, fun hc : k = x => hkx hc]
        · simp [dset, hkx, hky, ih hx']

theorem dset_eq_self {t : Rec} {x : Word} {v : Val}
    (h : dget t x = some v) : dset t x v = t := by
  induction t with
  | nil => simp [dget_nil] at h
  | cons p rest ih =>
      obtain ⟨k, w⟩ := p
      rw [dget_cons] at h
      unfold dset
      by_cases hk : k = x
      · rw [if_pos hk]
        rw [if_pos hk] at h
        injection h with h
        rw [h]
      · rw [if_neg hk]
        rw [if_neg hk] at h
        rw [ih h]

theorem dkeys_dset_mem {t : Rec} {x : Word} (hx : x ∈ dkeys t) (v : Val) :
    dkeys (dset t x v) = dkeys t := by
  induction t with
  | nil => simp [dkeys] at hx
  | cons p rest ih =>
      obtain ⟨k, w⟩ := p
      unfold dset
      by_cases hk : k = x
      · rw [if_pos hk]; simp [dkeys]
      · rw [if_neg hk]
        have hx' : x ∈ dkeys rest := by
          rcases List.mem_cons.mp hx with hx | hx
          · exact absurd hx.symm hk
          · exact hx
        simp only [dkeys, List.map_cons] at ih ⊢
        rw [ih hx']

theorem dget_mem_keys {t : Rec} {x : Word} (hx : x ∈ dkeys t) :
    ∃ v, dget t x = some v := by
  induction t with
  | nil => simp [dkeys] at hx
  | cons p rest ih =>
      obtain ⟨k, w⟩ := p
      rw [dget_cons]
      by_cases hk : k = x
      · exact ⟨w, by rw [if_pos hk]⟩
      · have hx' : x ∈ dkeys rest := by
          rcases List.mem_cons.mp hx with hx | hx
          · exact absurd hx.symm hk
          · exact hx
        rw [if_neg hk]
        exact ih hx'

/-! ### C8: what the stacks store -/

/-- The inverse `invert` produces for `cmdRen`: the same `set_name` head
(it is self-inverse) with the target's `name` and the `new_name` keyword
value swapped. -/
def cmdRenInv : SExpr :=
  .form [.sym (W "set_name"), .key (W "labels"), .sym (W "labels"),
         .key (W "target"),
         .form [.sym (W "interval"), .key (W "index"), .val (.int 0),
                .key (W "name"), .val (.str (W "q"))],
         .key (W "new_name"), .val (.str (W "a"))]

/-- A stack whose redo deque holds one undone command. -/
def csR : CorrectionStack :=
  ⟨labels3, [], [cmdRen], W "ops", W "u-0", W "f00f"⟩

/-- The stack `csW.undo` returns. -/
def csWU : CorrectionStack :=
  ⟨labels3, [], [cmdRenInv], W "ops", W "u-0", W "f00f"⟩

/-- The stack `csR.redo` returns. -/
def csRR : CorrectionStack :=
  ⟨labels3, [cmdRenInv], [], W "ops", W "u-0", W "f00f"⟩

/-- **C8, counterexample.**  The claim says the history never stores an
inverted command.  Run `push(codegen_rename(0, 'q'))` then `undo()` on a
fresh stack over `labels3`: the whole history is the redo deque's single
entry, and that entry is `invert`'s output for the pushed command — not
the forward command that was pushed. -/
theorem c8_cex_history_stores_inverse :
    (cs0.push cmdRen >>= CorrectionStack.undo).map
        (fun s => (s.undo_stack, s.redo_stack)) = .ok ([], [cmdRenInv]) ∧
    invFst cmdRen = .ok cmdRenInv ∧ ¬ cmdRenInv = cmdRen := by decide

/-- **C8, amended.**  `undo` pops the last forward command and appends its
*inverse* to the redo deque; `redo` pops that stored entry and appends its
inverse to the undo deque.  So the undo deque receives only re-inverted
(forward) commands, but the redo deque stores already-inverted commands
and `redo` applies its stored entry's inverse rather than deriving a
direction from a forward entry. -/
theorem c8_amended_stacks_store_inverses
    (s s' t t' : CorrectionStack)
    (hu : s.undo = .ok s') (hr : t.redo = .ok t') :
    (∃ c p, s.undo_stack.getLast? = some c ∧ invert c = .ok p ∧
       s'.redo_stack = s.redo_stack ++ [p.1] ∧
       s'.undo_stack = s.undo_stack.dropLast) ∧
    (∃ c p, t.redo_stack.getLast? = some c ∧ invert c = .ok p ∧
       t'.undo_stack = t.undo_stack ++ [p.1] ∧
       t'.redo_stack = t.redo_stack.dropLast) := by
  constructor
  · unfold CorrectionStack.undo at hu
    split at hu
    · exact absurd hu (by simp)
    next c hc =>
      rcases hi : invert c with er | p
      · rw [hi] at hu
        simp only [error_bind] at hu
        exact absurd hu (by simp)
      · rw [hi] at hu
        obtain ⟨p1, p2⟩ := p
        simp only [ok_bind] at hu
        rcases ha : applyCmd p1 s.labels with er | L
        · rw [ha] at hu
          simp only [error_bind] at hu
          exact absurd hu (by simp)
        · rw [ha] at hu
          simp only [ok_bind] at hu
          injection hu with hu
          exact ⟨c, (p1, p2), hc, hi, by rw [← hu], by rw [← hu]⟩
  · unfold CorrectionStack.redo at hr
    split at hr
    · exact absurd hr (by simp)
    next c hc =>
      rcases hi : invert c with er | p
      · rw [hi] at hr
        simp only [error_bind] at hr
        exact absurd hr (by simp)
      · rw [hi] at hr
        obtain ⟨p1, p2⟩ := p
        simp only [ok_bind] at hr
        rcases ha : applyCmd p1 t.labels with er | L
        · rw [ha] at hr
          simp only [error_bind] at hr
          exact absurd hr (by simp)
        · rw [ha] at hr
          simp only [ok_bind] at hr
          injection hr with hr
          exact ⟨c, (p1, p2), hc, hi, by rw [← hr], by rw [← hr]⟩

/-- **C8, witness.**  The amended statement at the one-command stacks
`csW` (undo) and `csR` (redo). -/
theorem c8_amended_witness :
    (∃ c p, csW.undo_stack.getLast? = some c ∧ invert c = .ok p ∧
       csWU.redo_stack = csW.redo_stack ++ [p.1] ∧
       csWU.undo_stack = csW.undo_stack.dropLast) ∧
    (∃ c p, csR.redo_stack.getLast? = some c ∧ invert c = .ok p ∧
       csRR.undo_stack = csR.undo_stack ++ [p.1] ∧
       csRR.redo_stack = csR.redo_stack.dropLast) :=
  c8_amended_stacks_store_inverses csW csWU csR csRR (by decide) (by decide)

/-! ### C4 and C1: where the inversion machinery goes wrong -/

/-- `codegen_merge_next(0, new_name='stop')` over `labels3`: a perfectly
legal generator call whose user-chosen name collides with a target field
name. -/
def cmdMergeStop : SExpr :=
  .form [.sym (W "merge_next"), .key (W "labels"), .sym (W "labels"),
         .key (W "target"),
         .form [.sym (W "interval_pair"), .key (W "index"), .val (.int 0),
                .key (W "name"), .val (.str (W "a")),
                .key (W "stop"), .val (.flt false 2 [1]),
                .key (W "next_start"), .val (.flt false 2 [1]),
                .key (W "next_name"), .val (.str (W "b"))],
         .key (W "new_name"), .val (.str (W "stop")),
         .key (W "new_stop"), .val .null,
         .key (W "new_next_start"), .val .null,
         .key (W "new_next_name"), .val .null]

/-- **C4.**  The code evaluated at the failing input: the generator call
`codegen_merge_next(0, new_name='stop')` produces `cmdMergeStop`, and
`invert(invert(cmdMergeStop))` raises `ValueError` instead of returning
the command.  The slip: `invert` locates the field to swap with
`target.index(name)`, which matches *values* as well as keys, so after
the first swap plants the string `'stop'` as the `name` value, the second
swap targets the wrong slot and destroys the `stop` key; the repo's own
`test_invert` asserts `invert(invert(cmd)) == cmd`. -/
theorem c4_bug_double_invert_raises :
    codegenMergeNext labels3 0 (some (.str (W "stop"))) = .ok cmdMergeStop ∧
    (invFst cmdMergeStop >>= invFst) = .error .valueError := by decide

/-- **C1.**  The code evaluated at the failing input: push
`codegen_delete(-1)` over `labels3` (deleting the last record), then
`undo()` and `redo()`.  After the push the labels are `[recA, recB]`; the
claim says `redo()` restores exactly that, but it yields `[recA, recC]`.
The slip: `_create` (the inverse of `delete`) restores with
`labels.insert(-1, ...)`, which inserts *before* the last element, while
`_delete` popped *the* last element; the mismatched record is then
deleted by the redo. -/
theorem c1_bug_delete_neg_breaks_cancellation :
    ((codegenDelete labels3 (-1)).bind (fun c =>
       (cs0.push c).bind (fun s1 =>
         (s1.undo >>= CorrectionStack.redo).map
           (fun s3 => (s1.labels, s3.labels))))) =
      .ok ([recA, recB], [recA, recC]) ∧
    ¬ ([recA, recB] : Labels) = [recA, recC] := ⟨by decide, by decide⟩

/-! ### Words and chunks: `detokenize` as glued words -/

theorem joinWords_cons (w w' : Word) (ws : List Word) :
    joinWords (w :: w' :: ws) = w ++ ' ' :: joinWords (w' :: ws) := rfl

theorem joinWords_cons_ne (w : Word) {ws : List Word} (h : ¬ ws = []) :
    joinWords (w :: ws) = w ++ ' ' :: joinWords ws := by
  match ws with
  | [] => exact absurd rfl h
  | w' :: ws' => rfl

theorem spacePieces_ne_nil (w : Word) : ¬ spacePieces w = [] := by
  induction w with
  | nil => simp [spacePieces]
  | cons c rest ih =>
      unfold spacePieces
      by_cases hc : c = ' '
      · rw [if_pos hc]; simp
      · rw [if_neg hc]
        match h : spacePieces rest with
        | [] => simp
        | p :: ps => simp

theorem joinWords_consHead (c : Char) (p : Word) (ps : List Word) :
    joinWords ((c :: p) :: ps) = c :: joinWords (p :: ps) := by
  match ps with
  | [] => rfl
  | q :: qs => rfl

theorem joinWords_spacePieces (w : Word) : joinWords (spacePieces w) = w := by
  induction w with
  | nil => rfl
  | cons c rest ih =>
      unfold spacePieces
      by_cases hc : c = ' '
      · rw [if_pos hc, joinWords_cons_ne [] (spacePieces_ne_nil rest), ih, hc]
        rfl
      · rw [if_neg hc]
        match h : spacePieces rest with
        | [] => exact absurd h (spacePieces_ne_nil rest)
        | p :: ps =>
            rw [joinWords_consHead]
            rw [h] at ih
            rw [ih]

theorem spacePieces_nospace (w : Word) (h : ∀ c ∈ w, ¬ c = ' ') :
    spacePieces w = [w] := by
  induction w with
  | nil => rfl
  | cons c rest ih =>
      unfold spacePieces
      rw [if_neg (h c (by simp))]
      rw [ih (fun d hd => h d (by simp [hd]))]

theorem spacePieces_append_nospace (a b : Word) (hb : ∀ c ∈ b, ¬ c = ' ') :
    spacePieces (a ++ b) = appendLast (spacePieces a) b := by
  induction a with
  | nil =>
      rw [List.nil_append, spacePieces_nospace b hb]
      rfl
  | cons c a' ih =>
      show spacePieces (c :: (a' ++ b)) = _
      unfold spacePieces
      by_cases hc : c = ' '
      · rw [if_pos hc, if_pos hc, ih]
        match h : spacePieces a' with
        | [] => exact absurd h (spacePieces_ne_nil a')
        | p :: ps => rfl
      · rw [if_neg hc, if_neg hc, ih]
        match h : spacePieces a' with
        | [] => exact absurd h (spacePieces_ne_nil a')
        | [p] => rfl
        | p :: q :: ps => rfl

theorem spacePieces_subset (w : Word) :
    ∀ q ∈ spacePieces w, ∀ c ∈ q, c ∈ w := by
  induction w with
  | nil =>
      intro q hq
      simp [spacePieces] at hq
      simp [hq]
  | cons c rest ih =>
      intro q hq d hd
      unfold spacePieces at hq
      by_cases hc : c = ' '
      · rw [if_pos hc] at hq
        rcases List.mem_cons.mp hq with h | h
        · simp [h] at hd
        · exact List.mem_cons_of_mem c (ih q h d hd)
      · rw [if_neg hc] at hq
        match h : spacePieces rest with
        | [] => exact absurd h (spacePieces_ne_nil rest)
        | p :: ps =>
            rw [h] at hq
            rcases List.mem_cons.mp hq with h' | h'
            · subst h'
              rcases List.mem_cons.mp hd with h'' | h''
              · simp [h'']
              · exact List.mem_cons_of_mem c (ih p (by rw [h]; simp) d h'')
            · exact List.mem_cons_of_mem c (ih q (by rw [h]; simp [h']) d hd)

theorem spacePieces_tail_ne (s : Word) (h : ' ' ∈ s) :
    ¬ (spacePieces s).tail = [] := by
  induction s with
  | nil => simp at h
  | cons c rest ih =>
      unfold spacePieces
      by_cases hc : c = ' '
      · rw [if_pos hc]
        simpa using spacePieces_ne_nil rest
      · rw [if_neg hc]
        have h' : ' ' ∈ rest := by
          rcases List.mem_cons.mp h with h | h
          · exact absurd h.symm hc
          · exact h
        match hsp : spacePieces rest with
        | [] => exact absurd hsp (spacePieces_ne_nil rest)
        | p :: ps =>
            have := ih h'
            rw [hsp] at this
            simpa using this

theorem goodStr_chars (s : Word) (h : goodStr s = true) :
    ∀ c ∈ s, goodStrChar c = true := by
  induction s with
  | nil => simp
  | cons c rest ih =>
      intro d hd
      match rest, hd with
      | [], hd =>
          simp only [goodStr] at h
          simp at hd
          rw [hd]; exact h
      | c' :: rest', hd =>
          simp only [goodStr, Bool.and_eq_true] at h
          rcases List.mem_cons.mp hd with h' | h'
          · rw [h']; exact h.1.1
          · exact ih h.2 d h'

theorem spacePieces_space (rest : Word) :
    spacePieces (' ' :: rest) = [] :: spacePieces rest := rfl

theorem spacePieces_cons (c : Char) (rest : Word) (hc : ¬ c = ' ') :
    ∃ p ps, spacePieces rest = p :: ps ∧
      spacePieces (c :: rest) = (c :: p) :: ps := by
  match h : spacePieces rest with
  | [] => exact absurd h (spacePieces_ne_nil rest)
  | p :: ps =>
      refine ⟨p, ps, rfl, ?_⟩
      unfold spacePieces
      rw [if_neg hc, h]

theorem mem_dropLast_cons {α : Type} {q p : α} {ps : List α}
    (h : q ∈ (p :: ps).dropLast) : q = p ∨ q ∈ ps.dropLast := by
  match ps with
  | [] => simp at h
  | r :: rs =>
      rw [List.dropLast_cons₂] at h
      rcases List.mem_cons.mp h with h | h
      · exact Or.inl h
      · exact Or.inr h

theorem goodStr_mid_pieces (s : Word) :
    goodStr s = true → ∀ q ∈ ((spacePieces s).tail).dropLast, ¬ q = [] := by
  induction s with
  | nil => simp [spacePieces]
  | cons c rest ih =>
      intro h q hq
      by_cases hc : c = ' '
      · subst hc
        rw [spacePieces_space] at hq
        simp only [List.tail_cons] at hq
        match rest with
        | [] => simp [spacePieces] at hq
        | c' :: rest' =>
            simp only [goodStr, Bool.and_eq_true] at h
            have hc' : ¬ c' = ' ' := by
              rcases h with ⟨⟨_, hnd⟩, _⟩
              intro hcc
              rw [hcc] at hnd
              simp at hnd
            obtain ⟨p, ps, hsp, hsp'⟩ := spacePieces_cons c' rest' hc'
            rw [hsp'] at hq
            rcases mem_dropLast_cons hq with h' | h'
            · subst h'; simp
            · have : q ∈ ((spacePieces (c' :: rest')).tail).dropLast := by
                rw [hsp']
                simpa using h'
              exact ih h.2 q this
      · obtain ⟨p, ps, hsp, hsp'⟩ := spacePieces_cons c rest hc
        rw [hsp'] at hq
        simp only [List.tail_cons] at hq
        have hmem : q ∈ ((spacePieces rest).tail).dropLast := by
          rw [hsp]
          simpa using hq
        have hgr : goodStr rest = true := by
          match rest with
          | [] => rfl
          | c' :: rest' =>
              simp only [goodStr, Bool.and_eq_true] at h
              exact h.2
        exact ih hgr q hmem

theorem appendLast_mem (ps : List Word) (b : Word) (hps : ¬ ps = []) :
    ∀ q ∈ appendLast ps b, q ∈ ps.dropLast ∨
      ∃ l, ps.getLast? = some l ∧ q = l ++ b := by
  induction ps with
  | nil => exact absurd rfl hps
  | cons p ps ih =>
      intro q hq
      match ps with
      | [] =>
          simp [appendLast] at hq
          exact Or.inr ⟨p, by simp [hq]⟩
      | r :: rs =>
          have hq' : q ∈ p :: appendLast (r :: rs) b := hq
          rcases List.mem_cons.mp hq' with h | h
          · subst h
            exact Or.inl (by rw [List.dropLast_cons₂]; simp)
          · rcases ih (by simp) q h with h' | ⟨l, hl, hq''⟩
            · exact Or.inl (by rw [List.dropLast_cons₂]; simp [h'])
            · exact Or.inr ⟨l, by rw [List.getLast?_cons_cons]; exact hl, hq''⟩

/-! ### The quote-merging pass restores chunks -/

theorem secondPassGo_inString (ms : List Word) :
    ∀ (fl g : Word) (rest acc : List Word),
      (∀ m ∈ ms, countQuotes m = 0) → countQuotes fl % 2 = 1 →
      secondPassGo ((ms ++ [fl]) ++ rest) true (g :: acc) =
        secondPassGo rest false ((g ++ ' ' :: joinWords (ms ++ [fl])) :: acc) := by
  induction ms with
  | nil =>
      intro fl g rest acc _ hfl
      show secondPassGo (fl :: rest) true (g :: acc) = _
      conv_lhs => simp only [secondPassGo]
      rw [if_neg (by simp), if_pos ⟨hfl, trivial⟩]
      rfl
  | cons m ms ih =>
      intro fl g rest acc hm hfl
      have hm0 : countQuotes m = 0 := hm m (by simp)
      show secondPassGo (m :: ((ms ++ [fl]) ++ rest)) true (g :: acc) = _
      conv_lhs => simp only [secondPassGo]
      rw [if_neg (by rw [hm0]; simp), if_neg (by rw [hm0]; simp),
          if_pos ⟨hm0, trivial⟩]
      show secondPassGo ((ms ++ [fl]) ++ rest) true ((g ++ ' ' :: m) :: acc) = _
      rw [ih fl (g ++ ' ' :: m) rest acc (fun x hx => hm x (by simp [hx])) hfl]
      have hj : (g ++ ' ' :: m) ++ ' ' :: joinWords (ms ++ [fl]) =
          g ++ ' ' :: joinWords (m :: (ms ++ [fl])) := by
        rw [joinWords_cons_ne m (by simp)]
        simp
      rw [hj, List.cons_append]

theorem goodChunk_single (w : Word) (hne : ¬ w = [])
    (hws : ∀ c ∈ w, ¬ isWs c) (hq : countQuotes w % 2 = 0) : goodChunk w := by
  intro rest acc
  rw [splitWs_single w hws hne]
  show secondPassGo (w :: rest) false acc = _
  conv_lhs => simp only [secondPassGo]
  rw [if_neg (by rw [hq]; simp), if_neg (by simp), if_neg (by simp)]

theorem goodStrChar_split {c : Char} (h : goodStrChar c = true) :
    ¬ c = '"' ∧ ¬ c = ')' ∧ (isWs c → c = ' ') := by
  simp only [goodStrChar, Bool.and_eq_true, Bool.not_eq_true',
    Bool.or_eq_true, decide_eq_false_iff_not, decide_eq_true_eq] at h
  rcases h with ⟨⟨h1, h2⟩, h3⟩
  refine ⟨h1, h2, fun hws => ?_⟩
  rcases h3 with h | h
  · rw [h] at hws; simp at hws
  · exact h

theorem appendLast_cons_ne (p : Word) {ps : List Word} (b : Word)
    (h : ¬ ps = []) : appendLast (p :: ps) b = p :: appendLast ps b := by
  match ps with
  | [] => exact absurd rfl h
  | r :: rs => rfl

theorem appendLast_decomp (ps : List Word) (b : Word) (h : ¬ ps = []) :
    ∃ l, ps.getLast? = some l ∧
      appendLast ps b = ps.dropLast ++ [l ++ b] := by
  induction ps with
  | nil => exact absurd rfl h
  | cons p ps ih =>
      match ps with
      | [] => exact ⟨p, rfl, rfl⟩
      | r :: rs =>
          obtain ⟨l, hl, he⟩ := ih (by simp)
          refine ⟨l, by rw [List.getLast?_cons_cons]; exact hl, ?_⟩
          rw [appendLast_cons_ne p b (by simp), he, List.dropLast_cons₂]
          rfl

theorem mem_of_getLast? {α : Type} {l : List α} {x : α}
    (h : l.getLast? = some x) : x ∈ l := by
  have hx : x ∈ l.getLast? := by rw [h]; rfl
  obtain ⟨hne, he⟩ := List.mem_getLast?_eq_getLast hx
  rw [he]
  exact List.getLast_mem hne

/-! ### `str.split` through the pieces -/

theorem splitWsGo_pieces (w : Word) :
    ∀ (r p : Word) (ps : List Word), spacePieces w = p :: ps →
      (∀ c ∈ w, isWs c → c = ' ') →
      (∀ q ∈ ps, ¬ q = []) →
      (¬ r = [] ∨ ¬ p = []) →
      splitWsGo w r = (r.reverse ++ p) :: ps := by
  induction w with
  | nil =>
      intro r p ps hsp _ _ hr
      simp [spacePieces] at hsp
      obtain ⟨hp, hps⟩ := hsp
      subst hp; subst hps
      have hr' : ¬ r = [] := by
        rcases hr with h | h
        · exact h
        · exact absurd rfl h
      show (if r = [] then [] else [r.reverse]) = [r.reverse ++ []]
      rw [if_neg hr']
      simp
  | cons c rest ih =>
      intro r p ps hsp hws hne hr
      by_cases hc : c = ' '
      · subst hc
        rw [spacePieces_space] at hsp
        injection hsp with hp hps
        subst hp
        have hr' : ¬ r = [] := by
          rcases hr with h | h
          · exact h
          · exact absurd rfl h
        rw [splitWsGo_space rest r hr']
        match hsp' : spacePieces rest with
        | [] => exact absurd hsp' (spacePieces_ne_nil rest)
        | p' :: ps' =>
            have hps' : ps = p' :: ps' := by rw [← hps, hsp']
            have hp'ne : ¬ p' = [] := hne p' (by rw [hps']; simp)
            have := ih [] p' ps' hsp'
              (fun d hd hw => hws d (by simp [hd]) hw)
              (fun q hq => hne q (by rw [hps']; simp [hq]))
              (Or.inr hp'ne)
            rw [this, hps']
            simp
      · have hcw : ¬ isWs c := fun hw => hc (hws c (by simp) hw)
        obtain ⟨p', ps', hsp', hcons⟩ := spacePieces_cons c rest hc
        rw [hcons] at hsp
        injection hsp with hp hps
        conv_lhs => simp only [splitWsGo]
        rw [if_neg hcw]
        rw [ih (c :: r) p' ps' hsp'
          (fun d hd hw => hws d (by simp [hd]) hw)
          (fun q hq => hne q (by rw [← hps]; exact hq)) (Or.inl (by simp))]
        rw [← hp, ← hps]
        simp

theorem splitWs_pieces (w : Word) (p : Word) (ps : List Word)
    (hsp : spacePieces w = p :: ps)
    (hws : ∀ c ∈ w, isWs c → c = ' ')
    (hne : ∀ q ∈ ps, ¬ q = []) (hp : ¬ p = []) :
    splitWs w = p :: ps := by
  unfold splitWs
  rw [splitWsGo_pieces w [] p ps hsp hws hne (Or.inr hp)]
  simp

theorem appendLast_ne_nil (ps : List Word) (b : Word) :
    ¬ appendLast ps b = [] := by
  match ps with
  | [] => simp [appendLast]
  | [p] => simp [appendLast]
  | p :: r :: rs => simp [appendLast]

theorem goodChunk_str (s P : Word) (hs : goodStr s = true)
    (hP : ∀ c ∈ P, c = ')') : goodChunk ('"' :: (s ++ '"' :: P)) := by
  have hchars := goodStr_chars s hs
  have hsq : ∀ c ∈ s, ¬ c = '"' :=
    fun c hc => (goodStrChar_split (hchars c hc)).1
  have hsws : ∀ c ∈ s, isWs c → c = ' ' :=
    fun c hc => (goodStrChar_split (hchars c hc)).2.2
  have hcs : s.count '"' = 0 :=
    List.count_eq_zero.mpr (fun h => hsq '"' h rfl)
  have hcP : P.count '"' = 0 :=
    List.count_eq_zero.mpr (fun h => by have := hP '"' h; simp at this)
  have hwsw : ∀ c ∈ '"' :: (s ++ '"' :: P), isWs c → c = ' ' := by
    intro c hc hw
    rcases List.mem_cons.mp hc with h | h
    · rw [h] at hw; simp [isWs] at hw
    · rcases List.mem_append.mp h with h | h
      · exact hsws c h hw
      · rcases List.mem_cons.mp h with h | h
        · rw [h] at hw; simp [isWs] at hw
        · rw [hP c h] at hw; simp [isWs] at hw
  by_cases hnospace : ∀ c ∈ s, ¬ c = ' '
  · apply goodChunk_single
    · simp
    · intro c hc hw
      have := hwsw c hc hw
      rcases List.mem_cons.mp hc with h | h
      · rw [this] at h; simp at h
      · rcases List.mem_append.mp h with h | h
        · exact hnospace c h this
        · rcases List.mem_cons.mp h with h | h
          · rw [this] at h; simp at h
          · have hp := hP c h
            rw [this] at hp; simp at hp
    · have h2 : countQuotes ('"' :: (s ++ '"' :: P)) = 2 := by
        unfold countQuotes
        rw [List.count_cons_self, List.count_append, List.count_cons_self,
            hcs, hcP]
      rw [h2]
  · push_neg at hnospace
    obtain ⟨c0, hc0s, hc0⟩ := hnospace
    have hmem : ' ' ∈ s := by rw [← hc0]; exact hc0s
    have hbns : ∀ c ∈ '"' :: P, ¬ c = ' ' := by
      intro c hc
      rcases List.mem_cons.mp hc with h | h
      · rw [h]; simp
      · rw [hP c h]; simp
    have hspa : spacePieces (s ++ '"' :: P) =
        appendLast (spacePieces s) ('"' :: P) :=
      spacePieces_append_nospace s _ hbns
    match hs0 : spacePieces s with
    | [] => exact absurd hs0 (spacePieces_ne_nil s)
    | p0 :: ps =>
      have hpsne : ¬ ps = [] := by
        have := spacePieces_tail_ne s hmem
        rw [hs0] at this
        simpa using this
      obtain ⟨l, hl, hdecomp⟩ := appendLast_decomp ps ('"' :: P) hpsne
      have hb : spacePieces (s ++ '"' :: P) =
          p0 :: appendLast ps ('"' :: P) := by
        rw [hspa, hs0, appendLast_cons_ne p0 _ hpsne]
      obtain ⟨p', ps', hsp', hcons⟩ :=
        spacePieces_cons '"' (s ++ '"' :: P) (by simp)
      have huni : p' :: ps' = p0 :: appendLast ps ('"' :: P) :=
        hsp'.symm.trans hb
      injection huni with hu1 hu2
      subst hu1; subst hu2
      have htail_ne : ∀ q ∈ appendLast ps ('"' :: P), ¬ q = [] := by
        intro q hq
        rcases appendLast_mem ps _ hpsne q hq with hq' | ⟨l', _, he⟩
        · apply goodStr_mid_pieces s hs
          rw [hs0]
          simpa using hq'
        · rw [he]; simp
      have hsplit : splitWs ('"' :: (s ++ '"' :: P)) =
          ('"' :: p') :: appendLast ps ('"' :: P) :=
        splitWs_pieces _ _ _ hcons hwsw htail_ne (by simp)
      have hsub := spacePieces_subset s
      have hp'q : p'.count '"' = 0 :=
        List.count_eq_zero.mpr
          (fun h => hsq '"' (hsub p' (by rw [hs0]; simp) '"' h) rfl)
      have hf0 : countQuotes ('"' :: p') % 2 = 1 := by
        have h1 : countQuotes ('"' :: p') = 1 := by
          unfold countQuotes
          rw [List.count_cons_self, hp'q]
        rw [h1]
      have hms : ∀ m ∈ ps.dropLast, countQuotes m = 0 := by
        intro m hm
        unfold countQuotes
        refine List.count_eq_zero.mpr (fun h => ?_)
        have hmps : m ∈ spacePieces s := by
          rw [hs0]
          exact List.mem_cons_of_mem p' (List.mem_of_mem_dropLast hm)
        exact hsq '"' (hsub m hmps '"' h) rfl
      have hflq : countQuotes (l ++ '"' :: P) % 2 = 1 := by
        have hlps : l ∈ spacePieces s := by
          rw [hs0]
          exact List.mem_cons_of_mem p' (mem_of_getLast? hl)
        have hlq : l.count '"' = 0 :=
          List.count_eq_zero.mpr (fun h => hsq '"' (hsub l hlps '"' h) rfl)
        have h1 : countQuotes (l ++ '"' :: P) = 1 := by
          unfold countQuotes
          rw [List.count_append, List.count_cons_self, hlq, hcP]
        rw [h1]
      intro rest acc
      rw [hsplit, hdecomp]
      show secondPassGo (('"' :: p') ::
        ((ps.dropLast ++ [l ++ '"' :: P]) ++ rest)) false acc = _
      conv_lhs => simp only [secondPassGo]
      rw [if_pos ⟨hf0, trivial⟩]
      rw [secondPassGo_inString ps.dropLast (l ++ '"' :: P) ('"' :: p')
        rest acc hms hflq]
      have hjoin : ('"' :: p') ++ ' ' ::
          joinWords (ps.dropLast ++ [l ++ '"' :: P]) =
          '"' :: (s ++ '"' :: P) := by
        rw [← hdecomp,
            ← joinWords_cons_ne ('"' :: p') (appendLast_ne_nil ps ('"' :: P)),
            ← hcons]
        exact joinWords_spacePieces _
      rw [hjoin]

/-! ### Atom codec: digits -/

theorem charDigit_digitChar (d : ℕ) (h : d < 10) :
    charDigit (digitChar d) = some d := by
  interval_cases d <;> decide

theorem digitChar_props (d : ℕ) (h : d < 10) :
    ¬ digitChar d = '"' ∧ ¬ digitChar d = ')' ∧ ¬ digitChar d = '(' ∧
    ¬ isWs (digitChar d) = true ∧ ¬ digitChar d = '.' ∧
    ¬ digitChar d = '-' ∧ ¬ digitChar d = '+' ∧ ¬ digitChar d = 'n' := by
  interval_cases d <;> decide

theorem digitChar_lower (d : ℕ) (h : d < 10) :
    asciiLower (digitChar d) = digitChar d ∧ ¬ digitChar d = 'i' := by
  interval_cases d <;> exact ⟨by decide, by decide⟩

theorem asciiLower_fix {c : Char} (h : ¬ (65 ≤ c.toNat ∧ c.toNat ≤ 90)) :
    asciiLower c = c := by
  unfold asciiLower
  rw [if_neg h]

theorem map_asciiLower_fix (w : Word)
    (h : ∀ c ∈ w, ¬ (65 ≤ c.toNat ∧ c.toNat ≤ 90)) :
    w.map asciiLower = w := by
  induction w with
  | nil => rfl
  | cons c cs ih =>
      simp only [List.map_cons]
      rw [asciiLower_fix (h c (List.mem_cons_self c cs)),
        ih (fun x hx => h x (List.mem_cons.mpr (Or.inr hx)))]

theorem flt_guard_head (c : Char) (cs : Word)
    (hi : ¬ asciiLower c = 'i') (hn : ¬ asciiLower c = 'n') :
    (¬ ((c :: cs).map asciiLower = W "inf" ∨
        (c :: cs).map asciiLower = W "infinity")) ∧
    ¬ (c :: cs).map asciiLower = W "nan" := by
  constructor
  · rintro (he | he)
    · have h2 : asciiLower c :: cs.map asciiLower =
          'i' :: 'n' :: 'f' :: [] := he
      injection h2 with h1 _
      exact hi h1
    · have h2 : asciiLower c :: cs.map asciiLower =
          'i' :: 'n' :: 'f' :: 'i' :: 'n' :: 'i' :: 't' :: 'y' :: [] := he
      injection h2 with h1 _
      exact hi h1
  · intro he
    have h2 : asciiLower c :: cs.map asciiLower =
        'n' :: 'a' :: 'n' :: [] := he
    injection h2 with h1 _
    exact hn h1

theorem natToCharsGo_ne_nil (f n : ℕ) : ¬ natToCharsGo (f + 1) n = [] := by
  unfold natToCharsGo
  by_cases h : n < 10
  · rw [if_pos h]; simp
  · rw [if_neg h]; simp

theorem natToCharsGo_digits (f : ℕ) :
    ∀ n c, c ∈ natToCharsGo f n → ∃ d, d < 10 ∧ c = digitChar d := by
  induction f with
  | zero => intro n c hc; simp [natToCharsGo] at hc
  | succ f ih =>
      intro n c hc
      unfold natToCharsGo at hc
      by_cases h : n < 10
      · rw [if_pos h] at hc
        simp at hc
        exact ⟨n, h, hc⟩
      · rw [if_neg h] at hc
        rcases List.mem_append.mp hc with hc | hc
        · exact ih (n / 10) c hc
        · simp at hc
          exact ⟨n % 10, Nat.mod_lt n (by omega), hc⟩

theorem digStep_none (c : Char) : digStep none c = none := rfl

theorem digStep_nondigit {c : Char} (h : charDigit c = none) (X : Option ℕ) :
    digStep X c = none := by
  match X with
  | none => rfl
  | some a =>
      show (do
        let d ← charDigit c
        some (a * 10 + d) : Option ℕ) = none
      rw [h]
      rfl

theorem foldl_digStep_none (w : Word) : w.foldl digStep none = none := by
  induction w with
  | nil => rfl
  | cons c cs ih =>
      show (c :: cs).foldl digStep none = none
      rw [List.foldl_cons, digStep_none]
      exact ih

theorem foldl_digStep_go (f : ℕ) :
    ∀ (n a : ℕ), n < 10 ^ f →
      (natToCharsGo f n).foldl digStep (some a) =
        some (a * 10 ^ (natToCharsGo f n).length + n) := by
  induction f with
  | zero =>
      intro n a hn
      have : n = 0 := by simpa using hn
      subst this
      simp [natToCharsGo]
  | succ f ih =>
      intro n a hn
      unfold natToCharsGo
      by_cases h : n < 10
      · rw [if_pos h]
        rw [List.foldl_cons]
        show List.foldl digStep (digStep (some a) (digitChar n)) [] = _
        have hd : digStep (some a) (digitChar n) = some (a * 10 + n) := by
          show (do
            let d ← charDigit (digitChar n)
            some (a * 10 + d) : Option ℕ) = _
          rw [charDigit_digitChar n h]
          rfl
        rw [hd]
        simp
      · rw [if_neg h]
        rw [List.foldl_append]
        have hdiv : n / 10 < 10 ^ f := by
          rw [Nat.div_lt_iff_lt_mul (by norm_num)]
          calc n < 10 ^ (f + 1) := hn
            _ = 10 ^ f * 10 := by ring
        rw [ih (n / 10) a hdiv]
        rw [List.foldl_cons]
        have hd : digStep (some (a * 10 ^ (natToCharsGo f (n / 10)).length + n / 10))
            (digitChar (n % 10)) =
            some ((a * 10 ^ (natToCharsGo f (n / 10)).length + n / 10) * 10 + n % 10) := by
          show (do
            let d ← charDigit (digitChar (n % 10))
            some ((a * 10 ^ (natToCharsGo f (n / 10)).length + n / 10) * 10 + d) :
              Option ℕ) = _
          rw [charDigit_digitChar (n % 10) (Nat.mod_lt n (by omega))]
          rfl
        rw [hd]
        simp only [List.foldl_nil, List.length_append, List.length_cons,
          List.length_nil]
        congr 1
        have hmod := Nat.div_add_mod n 10
        ring_nf
        omega

theorem parseDigits_ne (w : Word) (h : ¬ w = []) :
    parseDigits w = w.foldl digStep (some 0) := by
  match w with
  | [] => exact absurd rfl h
  | c :: cs => rfl

theorem parseDigits_natToChars (n : ℕ) :
    parseDigits (natToChars n) = some n := by
  unfold natToChars
  rw [parseDigits_ne _ (natToCharsGo_ne_nil n n)]
  have hlt : n < 10 ^ (n + 1) :=
    lt_of_lt_of_le (Nat.lt_two_pow n)
      (Nat.pow_le_pow_left (by norm_num) (n + 1) |>.trans' (Nat.pow_le_pow_right (by norm_num) (Nat.le_succ n)))
  rw [foldl_digStep_go (n + 1) n 0 hlt]
  simp

theorem parseDigits_nondigit {w : Word} {c : Char} (hc : c ∈ w)
    (h : charDigit c = none) : parseDigits w = none := by
  obtain ⟨u, v, rfl⟩ := List.append_of_mem hc
  rw [parseDigits_ne _ (by simp)]
  rw [List.foldl_append, List.foldl_cons, digStep_nondigit h _]
  exact foldl_digStep_none v

/-! ### Atom codec: ints, floats, names -/

theorem natToChars_nondot (n : ℕ) :
    ∀ c ∈ natToChars n, ¬ c = '.' := by
  intro c hc
  obtain ⟨d, hd, rfl⟩ := natToCharsGo_digits (n + 1) n c hc
  exact (digitChar_props d hd).2.2.2.2.1

theorem parseIntTok_other {c : Char} (cs : Word)
    (h1 : ¬ c = '-') (h2 : ¬ c = '+') :
    parseIntTok (c :: cs) = (parseDigits (c :: cs)).map (fun n => (n : ℤ)) := by
  unfold parseIntTok
  split
  next heq => injection heq with heq _; exact absurd heq h1
  next heq => injection heq with heq _; exact absurd heq h2
  next => rfl

theorem parseIntTok_intToChars (n : ℤ) :
    parseIntTok (intToChars n) = some n := by
  unfold intToChars
  by_cases h : n < 0
  · rw [if_pos h]
    have hstep : parseIntTok ('-' :: natToChars n.natAbs) =
        (parseDigits (natToChars n.natAbs)).map (fun m => -(m : ℤ)) := rfl
    rw [hstep, parseDigits_natToChars]
    show some (-(n.natAbs : ℤ)) = some n
    congr 1
    omega
  · rw [if_neg h]
    have hne := natToCharsGo_ne_nil n.toNat n.toNat
    match hw : natToChars n.toNat with
    | [] => exact absurd hw hne
    | c :: cs =>
        have hcd : ∃ d, d < 10 ∧ c = digitChar d := by
          apply natToCharsGo_digits (n.toNat + 1) n.toNat
          show c ∈ natToChars n.toNat
          rw [hw]; simp
        obtain ⟨d, hd, rfl⟩ := hcd
        rw [parseIntTok_other cs (digitChar_props d hd).2.2.2.2.2.1
          (digitChar_props d hd).2.2.2.2.2.2.1]
        rw [← hw, parseDigits_natToChars]
        show some ((n.toNat : ℤ)) = some n
        congr 1
        omega

theorem takeWhile_nodot (u v : Word) (hu : ∀ c ∈ u, ¬ c = '.') :
    (u ++ '.' :: v).takeWhile (fun c => c ≠ '.') = u := by
  induction u with
  | nil => simp [List.takeWhile]
  | cons c cs ih =>
      show ((c :: (cs ++ '.' :: v)).takeWhile fun c => c ≠ '.') = c :: cs
      rw [List.takeWhile_cons]
      rw [if_pos (by simpa using hu c (by simp))]
      rw [ih (fun d hd => hu d (by simp [hd]))]

theorem takeWhile_all (w : Word) (p : Char → Bool)
    (hw : ∀ c ∈ w, p c = true) : w.takeWhile p = w := by
  induction w with
  | nil => rfl
  | cons c cs ih =>
      rw [List.takeWhile_cons, if_pos (hw c (by simp))]
      rw [ih (fun d hd => hw d (by simp [hd]))]

theorem parseFracDigits_map (frac : List Digit) :
    parseFracDigits (frac.map (fun d => digitChar d)) = some frac := by
  induction frac with
  | nil => rfl
  | cons d ds ih =>
      show parseFracDigits (digitChar (d : ℕ) :: ds.map (fun d => digitChar d)) = _
      unfold parseFracDigits
      rw [charDigit_digitChar (d : ℕ) d.isLt]
      show (do
        if h : (d : ℕ) < 10 then
          let rest ← parseFracDigits (ds.map (fun d => digitChar d))
          some (⟨(d : ℕ), h⟩ :: rest)
        else none : Option (List Digit)) = _
      rw [dif_pos d.isLt, ih]
      rfl

theorem parseFltTok_pos (ip : ℕ) (frac : List Digit) :
    parseFltTok (natToChars ip ++ '.' :: frac.map (fun d => digitChar d)) =
      some (.flt false ip frac) := by
  have hne := natToCharsGo_ne_nil ip ip
  match hw : natToChars ip with
  | [] => exact absurd hw hne
  | c :: cs =>
      have hcd : ∃ d, d < 10 ∧ c = digitChar d := by
        apply natToCharsGo_digits (ip + 1) ip
        show c ∈ natToChars ip
        rw [hw]; simp
      obtain ⟨d, hd, rfl⟩ := hcd
      show parseFltTok
        (digitChar d :: (cs ++ '.' :: frac.map (fun d => digitChar d))) = _
      unfold parseFltTok
      split
      next heq =>
        injection heq with heq _
        exact absurd heq ((digitChar_props d hd).2.2.2.2.2.1)
      next heq =>
        injection heq with heq _
        exact absurd heq ((digitChar_props d hd).2.2.2.2.2.2.1)
      next =>
        simp only [Option.bind_eq_bind, Option.some_bind]
        have hg := flt_guard_head (digitChar d)
          (cs ++ '.' :: frac.map (fun d => digitChar d))
          (by rw [(digitChar_lower d hd).1]; exact (digitChar_lower d hd).2)
          (by rw [(digitChar_lower d hd).1]
              exact (digitChar_props d hd).2.2.2.2.2.2.2)
        rw [if_neg hg.1, if_neg hg.2]
        have hnd : ∀ c ∈ digitChar d :: cs, ¬ c = '.' := by
          rw [← hw]; exact natToChars_nondot ip
        have htw : List.takeWhile (fun c => (decide (c ≠ '.')))
            (digitChar d :: (cs ++ '.' :: frac.map (fun d => digitChar d))) =
            digitChar d :: cs := by
          have h := takeWhile_nodot (digitChar d :: cs)
            (frac.map (fun d => digitChar d)) hnd
          simpa using h
        simp only [htw]
        have hdrop : List.drop (digitChar d :: cs).length
            (digitChar d :: (cs ++ '.' :: frac.map (fun d => digitChar d))) =
            '.' :: frac.map (fun d => digitChar d) := by
          rw [show digitChar d :: (cs ++ '.' :: frac.map (fun d => digitChar d)) =
            (digitChar d :: cs) ++ '.' :: frac.map (fun d => digitChar d) from rfl]
          exact List.drop_left _ _
        simp only [hdrop]
        rw [if_neg (by simp)]
        rw [if_neg (by simp)]
        rw [← hw, parseDigits_natToChars, parseFracDigits_map]
        rfl

theorem parseFltTok_neg (ip : ℕ) (frac : List Digit) :
    parseFltTok
      ('-' :: (natToChars ip ++ '.' :: frac.map (fun d => digitChar d))) =
      some (.flt true ip frac) := by
  unfold parseFltTok
  simp only [Option.bind_eq_bind, Option.some_bind]
  have hne := natToCharsGo_ne_nil ip ip
  match hw : natToChars ip with
  | [] => exact absurd hw hne
  | c :: cs =>
      have hcd : ∃ d, d < 10 ∧ c = digitChar d := by
        apply natToCharsGo_digits (ip + 1) ip
        show c ∈ natToChars ip
        rw [hw]; simp
      obtain ⟨d, hd, hcde⟩ := hcd
      have hg2 : (¬ (((c :: cs) ++ '.' :: frac.map (fun d => digitChar d)).map
            asciiLower = W "inf" ∨
          ((c :: cs) ++ '.' :: frac.map (fun d => digitChar d)).map
            asciiLower = W "infinity")) ∧
          ¬ ((c :: cs) ++ '.' :: frac.map (fun d => digitChar d)).map
            asciiLower = W "nan" := by
        simp only [List.cons_append]
        exact flt_guard_head c (cs ++ '.' :: frac.map (fun d => digitChar d))
          (by rw [hcde, (digitChar_lower d hd).1]
              exact (digitChar_lower d hd).2)
          (by rw [hcde, (digitChar_lower d hd).1]
              exact (digitChar_props d hd).2.2.2.2.2.2.2)
      rw [if_neg hg2.1, if_neg hg2.2]
      have hnd : ∀ e ∈ c :: cs, ¬ e = '.' := by
        rw [← hw]; exact natToChars_nondot ip
      have htw : List.takeWhile (fun c => (decide (c ≠ '.')))
          (c :: cs ++ '.' :: frac.map (fun d => digitChar d)) =
          c :: cs := takeWhile_nodot (c :: cs) _ hnd
      simp only [htw]
      have hdrop : List.drop (c :: cs).length
          (c :: cs ++ '.' :: frac.map (fun d => digitChar d)) =
          '.' :: frac.map (fun d => digitChar d) := List.drop_left _ _
      simp only [hdrop]
      rw [if_neg (by simp)]
      rw [if_neg (by simp)]
      rw [← hw] at *
      rw [parseDigits_natToChars, parseFracDigits_map]
      rfl

theorem parseFltTok_fltToChars (neg : Bool) (ip : ℕ) (frac : List Digit) :
    parseFltTok (fltToChars neg ip frac) = some (.flt neg ip frac) := by
  unfold fltToChars
  match neg with
  | true =>
      rw [if_pos rfl, List.singleton_append]
      exact parseFltTok_neg ip frac
  | false =>
      rw [if_neg (by simp)]
      rw [List.nil_append]
      exact parseFltTok_pos ip frac

theorem parseIntTok_flt (neg : Bool) (ip : ℕ) (frac : List Digit) :
    parseIntTok (fltToChars neg ip frac) = none := by
  have hdotmem : '.' ∈ natToChars ip ++ '.' :: frac.map (fun d => digitChar d) :=
    List.mem_append.mpr (Or.inr (by simp))
  have hpd : parseDigits
      (natToChars ip ++ '.' :: frac.map (fun d => digitChar d)) = none :=
    parseDigits_nondigit hdotmem (by decide)
  unfold fltToChars
  match neg with
  | true =>
      rw [if_pos rfl, List.singleton_append]
      show (parseDigits
          (natToChars ip ++ '.' :: frac.map (fun d => digitChar d))).map
            (fun m => -(m : ℤ)) = none
      rw [hpd]
      rfl
  | false =>
      rw [if_neg (by simp), List.nil_append]
      have hne := natToCharsGo_ne_nil ip ip
      match hw : natToChars ip with
      | [] => exact absurd hw hne
      | c :: cs =>
          have hcd : ∃ d, d < 10 ∧ c = digitChar d := by
            apply natToCharsGo_digits (ip + 1) ip
            show c ∈ natToChars ip
            rw [hw]; simp
          obtain ⟨d, hd, rfl⟩ := hcd
          show parseIntTok
            (digitChar d :: (cs ++ '.' :: frac.map (fun d => digitChar d))) = _
          rw [parseIntTok_other _ (digitChar_props d hd).2.2.2.2.2.1
            (digitChar_props d hd).2.2.2.2.2.2.1]
          have : parseDigits
              (digitChar d :: (cs ++ '.' :: frac.map (fun d => digitChar d))) =
              none := by
            have h1 : digitChar d :: (cs ++ '.' :: frac.map (fun d => digitChar d)) =
                natToChars ip ++ '.' :: frac.map (fun d => digitChar d) := by
              rw [hw]; rfl
            rw [h1]
            exact hpd
          rw [this]
          rfl

/-! ### Atom codec: names -/

theorem lowerCh_bounds {c : Char} (h : lowerCh c = true) :
    97 ≤ c.toNat ∧ c.toNat ≤ 122 := by
  simp only [lowerCh, Bool.and_eq_true, decide_eq_true_eq] at h
  exact h

theorem lowerCh_ne {c : Char} (h : lowerCh c = true) (x : Char)
    (hx : x.toNat < 97 ∨ 122 < x.toNat) : ¬ c = x := by
  intro he
  obtain ⟨h1, h2⟩ := lowerCh_bounds h
  rw [he] at h1 h2
  omega

theorem lowerCh_not_ws {c : Char} (h : lowerCh c = true) :
    ¬ isWs c = true := by
  intro hw
  simp only [isWs, decide_eq_true_eq] at hw
  obtain ⟨h1, h2⟩ := lowerCh_bounds h
  rcases hw with he | he | he | he | he | he <;> rw [he] at h1 <;>
    exact absurd h1 (by decide)

theorem lowerCh_nondigit {c : Char} (h : lowerCh c = true) :
    charDigit c = none := by
  obtain ⟨h1, h2⟩ := lowerCh_bounds h
  unfold charDigit
  rw [if_neg (by omega)]

theorem map_h2u_u2h (cs : Word)
    (h : ∀ ch ∈ cs, lowerCh ch = true ∨ ch = '_') :
    (cs.map (fun ch => if ch = '_' then '-' else ch)).map
      (fun ch => if ch = '-' then '_' else ch) = cs := by
  induction cs with
  | nil => rfl
  | cons c cs ih =>
      simp only [List.map_cons]
      rw [ih (fun x hx => h x (by simp [hx]))]
      by_cases hc : c = '_'
      · rw [if_pos hc, if_pos rfl, hc]
      · rw [if_neg hc]
        have hlow : lowerCh c = true := by
          rcases h c (by simp) with h' | h'
          · exact h'
          · exact absurd h' hc
        rw [if_neg (lowerCh_ne hlow '-' (by left; decide))]

theorem mapped_chars (cs : Word)
    (h : ∀ ch ∈ cs, lowerCh ch = true ∨ ch = '_') :
    ∀ ch ∈ cs.map (fun ch => if ch = '_' then '-' else ch),
      lowerCh ch = true ∨ ch = '-' := by
  intro ch hch
  obtain ⟨x, hx, rfl⟩ := List.mem_map.mp hch
  rcases h x hx with h' | h'
  · left
    rw [if_neg (lowerCh_ne h' '_' (by left; decide))]
    exact h'
  · right
    rw [if_pos h']

theorem map_h2u_eq_self (cs : Word) (h : ∀ ch ∈ cs, ¬ ch = '_') :
    cs.map (fun ch => if ch = '_' then '-' else ch) = cs := by
  induction cs with
  | nil => rfl
  | cons x xs ih =>
      simp only [List.map_cons]
      rw [if_neg (h x (List.mem_cons_self x xs)),
        ih (fun ch hch => h ch (List.mem_cons.mpr (Or.inr hch)))]

theorem name_tok_ne (c : Char) (cs t : Word)
    (ht : ∀ ch ∈ t, ¬ ch = '-') (hne : ¬ c :: cs = t) :
    ¬ c :: cs.map (fun ch => if ch = '_' then '-' else ch) = t := by
  intro he
  apply hne
  have hnu : ∀ ch ∈ cs, ¬ ch = '_' := by
    intro ch hch he2
    refine ht '-' ?_ rfl
    rw [← he]
    exact List.mem_cons.mpr (Or.inr (List.mem_map.mpr
      ⟨ch, hch, by rw [if_pos he2]⟩))
  rw [← he, map_h2u_eq_self cs hnu]

theorem nameTokChar {c : Char} (h : lowerCh c = true ∨ c = '-') :
    ¬ c = '"' ∧ ¬ c = ')' ∧ ¬ c = '(' ∧ ¬ isWs c = true ∧ ¬ c = '.' ∧
    ¬ c = ' ' := by
  rcases h with h | h
  · exact ⟨lowerCh_ne h '"' (by left; decide),
      lowerCh_ne h ')' (by left; decide),
      lowerCh_ne h '(' (by left; decide),
      lowerCh_not_ws h,
      lowerCh_ne h '.' (by left; decide),
      lowerCh_ne h ' ' (by left; decide)⟩
  · subst h
    refine ⟨by decide, by decide, by decide, by decide, by decide, by decide⟩

theorem goodName_parts {s : Word} (h : goodName s = true) :
    ∃ c cs, s = c :: cs ∧ lowerCh c = true ∧
      ∀ ch ∈ cs, lowerCh ch = true ∨ ch = '_' := by
  match s with
  | [] => simp [goodName] at h
  | c :: cs =>
      simp only [goodName, Bool.and_eq_true, List.all_eq_true] at h
      refine ⟨c, cs, rfl, h.1, fun ch hch => ?_⟩
      have := h.2 ch hch
      simpa using this

theorem parseFltTok_nodot (c : Char) (cs : Word)
    (h1 : ¬ c = '-') (h2 : ¬ c = '+')
    (hif : ¬ ((c :: cs).map asciiLower = W "inf" ∨
      (c :: cs).map asciiLower = W "infinity"))
    (hna : ¬ (c :: cs).map asciiLower = W "nan")
    (hnd : ∀ x ∈ c :: cs, ¬ x = '.') :
    parseFltTok (c :: cs) = none := by
  unfold parseFltTok
  split
  next heq => injection heq with heq _; exact absurd heq h1
  next heq => injection heq with heq _; exact absurd heq h2
  next =>
      simp only [Option.bind_eq_bind, Option.some_bind]
      rw [if_neg hif, if_neg hna]
      have htw : List.takeWhile (fun x => (decide (x ≠ '.'))) (c :: cs) =
          c :: cs :=
        takeWhile_all (c :: cs) _ (fun x hx => by simpa using hnd x hx)
      simp only [htw, List.drop_length]

theorem atomize_sym (s : Word) (hn : goodName s = true)
    (hnn : ¬ s = W "null") (hf : floatName s = false) :
    ∃ w, deatomize (.sym s) = .ok w ∧ atomize w = .ok (.sym s) ∧
      ∀ x ∈ w, lowerCh x = true ∨ x = '-' := by
  obtain ⟨c, cs, rfl, hc, hcs⟩ := goodName_parts hn
  have hf3 : ¬ c :: cs = W "inf" ∧ ¬ c :: cs = W "infinity" ∧
      ¬ c :: cs = W "nan" :=
    ⟨fun he => absurd (he ▸ hf) (by decide),
     fun he => absurd (he ▸ hf) (by decide),
     fun he => absurd (he ▸ hf) (by decide)⟩
  refine ⟨c :: cs.map (fun ch => if ch = '_' then '-' else ch), rfl, ?_, ?_⟩
  · have hchars : ∀ x ∈ cs.map (fun ch => if ch = '_' then '-' else ch),
        lowerCh x = true ∨ x = '-' := mapped_chars cs hcs
    have hfix : (c :: cs.map (fun ch => if ch = '_' then '-' else ch)).map
        asciiLower = c :: cs.map (fun ch => if ch = '_' then '-' else ch) := by
      apply map_asciiLower_fix
      intro x hx
      rcases List.mem_cons.mp hx with h | h
      · rw [h]
        have := lowerCh_bounds hc
        omega
      · rcases hchars x h with h' | h'
        · have := lowerCh_bounds h'
          omega
        · rw [h']
          decide
    simp only [atomize]
    rw [if_neg (lowerCh_ne hc '"' (by left; decide))]
    rw [if_neg ?hnull]
    case hnull =>
      intro he
      apply hnn
      have hc2 : c = 'n' ∧ cs.map (fun ch => if ch = '_' then '-' else ch) =
          ['u', 'l', 'l'] := by
        have : c :: cs.map (fun ch => if ch = '_' then '-' else ch) =
            'n' :: ['u', 'l', 'l'] := he
        exact ⟨by injection this, by injection this⟩
      have hcs' : cs = ['u', 'l', 'l'] := by
        have := map_h2u_u2h cs hcs
        rw [hc2.2] at this
        rw [← this]
        rfl
      rw [hc2.1, hcs']
      rfl
    rw [parseIntTok_other _ (lowerCh_ne hc '-' (by left; decide))
      (lowerCh_ne hc '+' (by left; decide))]
    rw [parseDigits_nondigit (List.mem_cons_self c _) (lowerCh_nondigit hc)]
    rw [parseFltTok_nodot c _ (lowerCh_ne hc '-' (by left; decide))
      (lowerCh_ne hc '+' (by left; decide)) ?hif ?hna ?hdot]
    case hif =>
      rw [hfix]
      rintro (he | he)
      · exact name_tok_ne c cs (W "inf") (by decide) hf3.1 he
      · exact name_tok_ne c cs (W "infinity") (by decide) hf3.2.1 he
    case hna =>
      rw [hfix]
      exact name_tok_ne c cs (W "nan") (by decide) hf3.2.2
    case hdot =>
      intro x hx
      rcases List.mem_cons.mp hx with h | h
      · rw [h]; exact lowerCh_ne hc '.' (by left; decide)
      · exact (nameTokChar (hchars x h)).2.2.2.2.1
    rw [map_h2u_u2h cs hcs]
    rw [if_neg ?hkey]
    case hkey =>
      intro he
      have : (c :: cs).take 2 = c :: cs.take 1 := by
        match cs with
        | [] => rfl
        | x :: xs => rfl
      rw [this] at he
      have hch : c = '#' := by
        have h2 : c :: cs.take 1 = '#' :: [':'] := he
        injection h2
      exact lowerCh_ne hc '#' (by left; decide) hch
    rfl
  · intro x hx
    rcases List.mem_cons.mp hx with h | h
    · rw [h]; left; exact hc
    · exact mapped_chars cs hcs x h

theorem atomize_key (s : Word) (hn : goodName s = true) :
    ∃ w, deatomize (.key s) = .ok w ∧ atomize w = .ok (.key s) ∧
      w = '#' :: ':' :: w.drop 2 ∧
      ∀ x ∈ w.drop 2, lowerCh x = true ∨ x = '-' := by
  obtain ⟨c, cs, rfl, hc, hcs⟩ := goodName_parts hn
  refine ⟨'#' :: ':' :: c :: cs.map (fun ch => if ch = '_' then '-' else ch),
    rfl, ?_, rfl, ?_⟩
  · simp only [atomize]
    rw [if_neg (by decide)]
    rw [if_neg (by intro he; injection he with h1 _; exact absurd h1 (by decide))]
    rw [parseIntTok_other _ (by decide) (by decide)]
    rw [parseDigits_nondigit (List.mem_cons_self '#' _) (by decide)]
    have hg := flt_guard_head '#'
      (':' :: c :: cs.map (fun ch => if ch = '_' then '-' else ch))
      (by decide) (by decide)
    rw [parseFltTok_nodot '#' _ (by decide) (by decide) hg.1 hg.2 ?hdot]
    case hdot =>
      intro x hx
      rcases List.mem_cons.mp hx with h | h
      · rw [h]; decide
      rcases List.mem_cons.mp h with h | h
      · rw [h]; decide
      rcases List.mem_cons.mp h with h | h
      · rw [h]; exact lowerCh_ne hc '.' (by left; decide)
      · exact (nameTokChar (mapped_chars cs hcs x h)).2.2.2.2.1
    have ht : List.map (fun ch => if ch = '-' then '_' else ch)
        (':' :: c :: cs.map (fun ch => if ch = '_' then '-' else ch)) =
        ':' :: c :: cs := by
      simp only [List.map_cons]
      rw [if_neg (by decide : ¬ (':' : Char) = '-'),
          if_neg (lowerCh_ne hc '-' (by left; decide)), map_h2u_u2h cs hcs]
    simp only [ht]
    rfl
  · intro x hx
    have hx' : x ∈ c :: cs.map (fun ch => if ch = '_' then '-' else ch) := hx
    rcases List.mem_cons.mp hx' with h | h
    · rw [h]; left; exact hc
    · exact mapped_chars cs hcs x h

/-! ### The paren-splitting pass on chunks -/

theorem thirdPassTok_paren (u : Word) (hu : ¬ u = []) :
    thirdPassTok ('(' :: u) = [W "(", u] := by
  simp only [thirdPassTok]
  rw [if_pos trivial, if_neg hu]

theorem replicate_getLast (n : ℕ) (x : Char) :
    (List.replicate (n + 1) x).getLast? = some x := by
  rw [List.replicate_succ']
  exact List.getLast?_concat _

theorem thirdPassTok_atomChunk (w : Word) (k : ℕ) (hne : ¬ w = [])
    (hhead : ¬ w.head? = some '(') (hnp : ¬ ')' ∈ w) :
    thirdPassTok (w ++ List.replicate k ')') =
      w :: List.replicate k (W ")") := by
  match w with
  | [] => exact absurd rfl hne
  | c :: cs =>
      have hc : ¬ c = '(' := by
        intro he
        exact hhead (by rw [he]; rfl)
      match k with
      | 0 =>
          simp only [List.replicate, List.append_nil]
          simp only [thirdPassTok]
          rw [if_neg hc, if_neg ?hlast]
          case hlast =>
            intro he
            exact hnp (mem_of_getLast? he)
      | j + 1 =>
          show thirdPassTok (c :: (cs ++ List.replicate (j + 1) ')')) = _
          simp only [thirdPassTok]
          rw [if_neg hc]
          have hg : (c :: (cs ++ List.replicate (j + 1) ')')).getLast? =
              some ')' := by
            rw [show c :: (cs ++ List.replicate (j + 1) ')') =
              (c :: cs) ++ List.replicate (j + 1) ')' from rfl]
            rw [List.getLast?_append_of_ne_nil _ (by simp)]
            exact replicate_getLast j ')'
          rw [if_pos hg]
          have hct : (c :: (cs ++ List.replicate (j + 1) ')')).count ')' =
              j + 1 := by
            rw [show c :: (cs ++ List.replicate (j + 1) ')') =
              (c :: cs) ++ List.replicate (j + 1) ')' from rfl]
            rw [List.count_append, List.count_eq_zero.mpr hnp,
              List.count_replicate_self]
            simp
          rw [hct]
          have hlen : (c :: (cs ++ List.replicate (j + 1) ')')).length -
              (j + 1) = (c :: cs).length := by
            simp [List.length_append]
            omega
          rw [hlen]
          have htake : (c :: (cs ++ List.replicate (j + 1) ')')).take
              (c :: cs).length = c :: cs := by
            rw [show c :: (cs ++ List.replicate (j + 1) ')') =
              (c :: cs) ++ List.replicate (j + 1) ')' from rfl]
            exact List.take_left _ _
          rw [htake]

/-! ### Atom tokens as chunks -/

theorem getLast_not_of_chars {w : Word} {x : Char}
    (h : ∀ c ∈ w, ¬ c = x) : ¬ w.getLast? = some x :=
  fun he => h x (mem_of_getLast? he) rfl

theorem head_ne_single {w : Word} {c : Char} {cs : Word} {x : Char}
    (hw : w = c :: cs) (hc : ¬ c = x) : ¬ w = [x] := by
  intro he
  rw [hw] at he
  injection he with h1 _
  exact hc h1

theorem plain_chunk_facts (w : Word) (hne : ¬ w = [])
    (hq : ¬ '"' ∈ w) (hws : ∀ c ∈ w, ¬ isWs c = true)
    (hhead : ¬ w.head? = some '(') (hnp : ¬ ')' ∈ w) :
    ∀ k, goodChunk (w ++ List.replicate k ')') ∧
      thirdPassTok (w ++ List.replicate k ')') =
        w :: List.replicate k (W ")") := by
  intro k
  constructor
  · apply goodChunk_single
    · simp [List.append_eq_nil, hne]
    · intro c hc
      rcases List.mem_append.mp hc with h | h
      · exact hws c h
      · rw [List.eq_of_mem_replicate h]; decide
    · unfold countQuotes
      rw [List.count_append, List.count_eq_zero.mpr hq,
        List.count_eq_zero.mpr
          (fun hm => by have := List.eq_of_mem_replicate hm; simp at this)]
  · exact thirdPassTok_atomChunk w k hne hhead hnp

theorem intToChars_chars (n : ℤ) :
    ∀ c ∈ intToChars n, c = '-' ∨ ∃ d, d < 10 ∧ c = digitChar d := by
  intro c hc
  unfold intToChars at hc
  by_cases h : n < 0
  · rw [if_pos h] at hc
    rcases List.mem_cons.mp hc with h' | h'
    · exact Or.inl h'
    · exact Or.inr (natToCharsGo_digits _ _ c h')
  · rw [if_neg h] at hc
    exact Or.inr (natToCharsGo_digits _ _ c hc)

theorem intChar_props {c : Char}
    (h : c = '-' ∨ c = '.' ∨ ∃ d, d < 10 ∧ c = digitChar d) :
    ¬ c = '"' ∧ ¬ isWs c = true ∧ ¬ c = ')' ∧ ¬ c = '(' ∧ ¬ c = 'n' := by
  rcases h with h | h | ⟨d, hd, h⟩
  · subst h; refine ⟨by decide, by decide, by decide, by decide, by decide⟩
  · subst h; refine ⟨by decide, by decide, by decide, by decide, by decide⟩
  · subst h
    obtain ⟨p1, p2, p3, p4, _, _, _, p8⟩ := digitChar_props d hd
    exact ⟨p1, p4, p2, p3, p8⟩

theorem fltToChars_chars (neg : Bool) (ip : ℕ) (frac : List Digit) :
    ∀ c ∈ fltToChars neg ip frac,
      c = '-' ∨ c = '.' ∨ ∃ d, d < 10 ∧ c = digitChar d := by
  intro c hc
  unfold fltToChars at hc
  rcases List.mem_append.mp hc with h | h
  · rcases List.mem_append.mp h with h | h
    · match neg with
      | true => simp at h; exact Or.inl h
      | false => simp at h
    · exact Or.inr (Or.inr (natToCharsGo_digits _ _ c h))
  · rcases List.mem_cons.mp h with h | h
    · exact Or.inr (Or.inl h)
    · obtain ⟨x, hx, rfl⟩ := List.mem_map.mp h
      simp only [bind_pure_comp] at hx
      obtain ⟨a, _, rfl⟩ := List.mem_map.mp hx
      exact Or.inr (Or.inr ⟨(a : ℕ), a.isLt, rfl⟩)

theorem head_not_of_chars {w : Word} {x : Char}
    (h : ∀ c ∈ w, ¬ c = x) : ¬ w.head? = some x := by
  match w with
  | [] => simp
  | c :: cs =>
      intro he
      injection he with he
      exact h c (by simp) he

theorem ne_single_of_chars {w : Word} {x : Char}
    (h : ∀ c ∈ w, ¬ c = x) : ¬ w = [x] := by
  intro he
  exact h x (by rw [he]; simp) rfl

theorem atom_token (a : SExpr) (ha : goodS a = true)
    (hna : ∀ es, ¬ a = .form es) :
    ∃ w, deatomize a = .ok w ∧ atomize w = .ok a ∧
      ¬ w = [] ∧ ¬ w = W "(" ∧ ¬ w = W ")" ∧
      ¬ w.head? = some '(' ∧ ¬ w.getLast? = some '(' ∧
      ∀ k, goodChunk (w ++ List.replicate k ')') ∧
        thirdPassTok (w ++ List.replicate k ')') =
          w :: List.replicate k (W ")") := by
  match a with
  | .form es => exact absurd rfl (hna es)
  | .val .null =>
      exact ⟨W "null", rfl, by decide, by decide, by decide, by decide,
        by decide, by decide,
        plain_chunk_facts _ (by decide) (by decide) (by decide) (by decide)
          (by decide)⟩
  | .val (.int n) =>
      have hprops : ∀ c ∈ intToChars n,
          ¬ c = '"' ∧ ¬ isWs c = true ∧ ¬ c = ')' ∧ ¬ c = '(' ∧ ¬ c = 'n' := by
        intro c hc
        refine intChar_props ?_
        rcases intToChars_chars n c hc with h | h
        · exact Or.inl h
        · exact Or.inr (Or.inr h)
      have hne : ¬ intToChars n = [] := by
        unfold intToChars
        by_cases h : n < 0
        · rw [if_pos h]; simp
        · rw [if_neg h]; exact natToCharsGo_ne_nil _ _
      refine ⟨intToChars n, rfl, ?_,
        hne,
        ne_single_of_chars (fun c hc => (hprops c hc).2.2.2.1),
        ne_single_of_chars (fun c hc => (hprops c hc).2.2.1),
        head_not_of_chars (fun c hc => (hprops c hc).2.2.2.1),
        getLast_not_of_chars (fun c hc => (hprops c hc).2.2.2.1),
        plain_chunk_facts _ hne (fun h => (hprops '"' h).1 rfl)
          (fun c hc => (hprops c hc).2.1)
          (head_not_of_chars (fun c hc => (hprops c hc).2.2.2.1))
          (fun h => (hprops ')' h).2.2.1 rfl)⟩
      match hw : intToChars n with
      | [] => exact absurd hw hne
      | c :: cs =>
          have hcmem : c ∈ intToChars n := by rw [hw]; simp
          simp only [atomize]
          rw [if_neg (hprops c hcmem).1]
          rw [if_neg ?hnull]
          case hnull =>
            intro he
            injection he with h1 _
            exact (hprops c hcmem).2.2.2.2 h1
          rw [← hw, parseIntTok_intToChars]
  | .val (.flt neg ip frac) =>
      have hprops : ∀ c ∈ fltToChars neg ip frac,
          ¬ c = '"' ∧ ¬ isWs c = true ∧ ¬ c = ')' ∧ ¬ c = '(' ∧ ¬ c = 'n' :=
        fun c hc => intChar_props (fltToChars_chars neg ip frac c hc)
      have hdot : '.' ∈ fltToChars neg ip frac := by
        unfold fltToChars
        exact List.mem_append.mpr (Or.inr (by simp))
      have hne : ¬ fltToChars neg ip frac = [] := by
        intro he
        rw [he] at hdot
        simp at hdot
      refine ⟨fltToChars neg ip frac, rfl, ?_,
        hne,
        ne_single_of_chars (fun c hc => (hprops c hc).2.2.2.1),
        ne_single_of_chars (fun c hc => (hprops c hc).2.2.1),
        head_not_of_chars (fun c hc => (hprops c hc).2.2.2.1),
        getLast_not_of_chars (fun c hc => (hprops c hc).2.2.2.1),
        plain_chunk_facts _ hne (fun h => (hprops '"' h).1 rfl)
          (fun c hc => (hprops c hc).2.1)
          (head_not_of_chars (fun c hc => (hprops c hc).2.2.2.1))
          (fun h => (hprops ')' h).2.2.1 rfl)⟩
      match hw : fltToChars neg ip frac with
      | [] => exact absurd hw hne
      | c :: cs =>
          have hcmem : c ∈ fltToChars neg ip frac := by rw [hw]; simp
          simp only [atomize]
          rw [if_neg (hprops c hcmem).1]
          rw [if_neg ?hnullf]
          case hnullf =>
            intro he
            rw [← hw] at he
            rw [he] at hdot
            exact absurd hdot (by decide)
          rw [← hw, parseIntTok_flt, parseFltTok_fltToChars]
  | .val (.str s) =>
      have hgs : goodStr s = true := by simpa [goodS] using ha
      have hchars := goodStr_chars s hgs
      have hnp : ¬ ')' ∈ ('"' :: (s ++ ['"'])) := by
        intro h
        rcases List.mem_cons.mp h with h | h
        · simp at h
        · rcases List.mem_append.mp h with h | h
          · exact (goodStrChar_split (hchars ')' h)).2.1 rfl
          · simp at h
      refine ⟨'"' :: (s ++ ['"']), rfl, ?_, by simp,
        ?_, ?_, by simp, ?_, ?_⟩
      · simp only [atomize]
        rw [if_pos trivial, List.dropLast_concat]
      · intro he
        injection he with h1 _
        simp at h1
      · intro he
        injection he with h1 _
        simp at h1
      · rw [show ('"' :: (s ++ ['"'])) = ('"' :: s) ++ ['"'] from by simp,
          List.getLast?_concat]
        simp
      · intro k
        constructor
        · have hshape : ('"' :: (s ++ ['"'])) ++ List.replicate k ')' =
              '"' :: (s ++ '"' :: List.replicate k ')') := by simp
          rw [hshape]
          exact goodChunk_str s _ hgs (fun c hc => List.eq_of_mem_replicate hc)
        · exact thirdPassTok_atomChunk _ k (by simp) (by simp) hnp
  | .val (.inf b) => simp [goodS] at ha
  | .val .nan => simp [goodS] at ha
  | .sym s =>
      have ha' : goodName s = true ∧ ¬ s = W "null" ∧
          floatName s = false := by
        simpa [goodS, and_assoc] using ha
      obtain ⟨w, hde, hat, hchars⟩ := atomize_sym s ha'.1 ha'.2.1 ha'.2.2
      have hfacts : ∀ c ∈ w, ¬ c = '"' ∧ ¬ c = ')' ∧ ¬ c = '(' ∧
          ¬ isWs c = true ∧ ¬ c = '.' ∧ ¬ c = ' ' :=
        fun c hc => nameTokChar (hchars c hc)
      have hne : ¬ w = [] := by
        intro he
        rw [he] at hat
        simp [atomize] at hat
      exact ⟨w, hde, hat, hne,
        ne_single_of_chars (fun c hc => (hfacts c hc).2.2.1),
        ne_single_of_chars (fun c hc => (hfacts c hc).2.1),
        head_not_of_chars (fun c hc => (hfacts c hc).2.2.1),
        getLast_not_of_chars (fun c hc => (hfacts c hc).2.2.1),
        plain_chunk_facts _ hne (fun h => (hfacts '"' h).1 rfl)
          (fun c hc => (hfacts c hc).2.2.2.1)
          (head_not_of_chars (fun c hc => (hfacts c hc).2.2.1))
          (fun h => (hfacts ')' h).2.1 rfl)⟩
  | .key s =>
      have ha' : goodName s = true := by simpa [goodS] using ha
      obtain ⟨w, hde, hat, hw2, hchars⟩ := atomize_key s ha'
      have hfacts : ∀ c ∈ w, ¬ c = '"' ∧ ¬ c = ')' ∧ ¬ c = '(' ∧
          ¬ isWs c = true := by
        intro c hc
        rw [hw2] at hc
        rcases List.mem_cons.mp hc with h | h
        · subst h; refine ⟨by decide, by decide, by decide, by decide⟩
        rcases List.mem_cons.mp h with h | h
        · subst h; refine ⟨by decide, by decide, by decide, by decide⟩
        · have := nameTokChar (hchars c h)
          exact ⟨this.1, this.2.1, this.2.2.1, this.2.2.2.1⟩
      have hne : ¬ w = [] := by
        rw [hw2]; simp
      exact ⟨w, hde, hat, hne,
        ne_single_of_chars (fun c hc => (hfacts c hc).2.2.1),
        ne_single_of_chars (fun c hc => (hfacts c hc).2.1),
        head_not_of_chars (fun c hc => (hfacts c hc).2.2.1),
        getLast_not_of_chars (fun c hc => (hfacts c hc).2.2.1),
        plain_chunk_facts _ hne (fun h => (hfacts '"' h).1 rfl)
          (fun c hc => (hfacts c hc).2.2.2)
          (head_not_of_chars (fun c hc => (hfacts c hc).2.2.1))
          (fun h => (hfacts ')' h).2.1 rfl)⟩

/-! ### Glue steps -/

theorem writeTokList_cons (e : SExpr) (rest : List SExpr) :
    writeTokList (e :: rest) =
      elemToks e >>= (fun pre =>
        writeTokList rest >>= (fun ts => Except.ok (pre ++ ts))) := by
  cases e <;> rfl

theorem gluedGo_attach (cur t : Word) (S : List Word)
    (h : ¬ (¬ t = W ")" ∧ ¬ cur.getLast? = some '(')) :
    gluedGo cur (t :: S) = gluedGo (cur ++ t) S := by
  conv_lhs => simp only [gluedGo]
  rw [if_neg h]

theorem gluedGo_step (cur u : Word) (S : List Word)
    (hu : ¬ u = W ")") (hc : ¬ cur.getLast? = some '(') :
    gluedGo cur (u :: S) = cur :: gluedGo u S := by
  conv_lhs => simp only [gluedGo]
  rw [if_pos ⟨hu, hc⟩]

theorem gluedGo_parens (k : ℕ) :
    ∀ (w : Word) (rest : List Word),
      gluedGo w (List.replicate k (W ")") ++ rest) =
        gluedGo (w ++ List.replicate k ')') rest := by
  induction k with
  | zero => intro w rest; simp
  | succ j ih =>
      intro w rest
      rw [List.replicate_succ, List.cons_append]
      rw [gluedGo_attach w (W ")") _ (by intro h; exact h.1 rfl)]
      rw [ih (w ++ W ")") rest]
      congr 1
      rw [List.replicate_succ]
      simp
      rfl

theorem chunksT_atom (e : SExpr) (hna : ∀ es, ¬ e = .form es) (k : ℕ) :
    chunksT e k = [tokA e ++ List.replicate k ')'] := by
  match e with
  | .form es => exact absurd rfl (hna es)
  | .val v => rfl
  | .sym s => rfl
  | .key s => rfl

theorem elem_serial_atom (e : SExpr) (he : goodS e = true)
    (hna : ∀ es, ¬ e = .form es) :
    ∃ ts, elemToks e = .ok ts ∧
      (∃ u us, ts = u :: us ∧ ¬ u = W ")") ∧
      (∀ w ∈ ts, ¬ w = []) ∧
      ∀ k,
        ((chunksT e k).flatMap thirdPassTok =
          ts ++ List.replicate k (W ")")) ∧
        (∀ q ∈ chunksT e k, goodChunk q) ∧
        (∀ rest, (rest = [] ∨ ∃ r rs, rest = r :: rs ∧ ¬ r = W ")") →
          tailG (ts ++ List.replicate k (W ")") ++ rest) =
            chunksT e k ++ tailG rest) := by
  obtain ⟨w, hde, hat, hne, hnp, hncl, hhead, hlast, hK⟩ := atom_token e he hna
  have het : elemToks e = .ok [w] := by
    cases e with
    | form es => exact absurd rfl (hna es)
    | val v => show (deatomize (.val v)).map ([·]) = _; rw [hde]; rfl
    | sym s => show (deatomize (.sym s)).map ([·]) = _; rw [hde]; rfl
    | key s => show (deatomize (.key s)).map ([·]) = _; rw [hde]; rfl
  have htok : tokA e = w := by unfold tokA; rw [hde]
  refine ⟨[w], het, ⟨w, [], rfl, hncl⟩, ?_, ?_⟩
  · intro x hx
    simp at hx
    rw [hx]
    exact hne
  · intro k
    have hch := chunksT_atom e hna k
    refine ⟨?_, ?_, ?_⟩
    · rw [hch, htok]
      simp only [List.flatMap_cons, List.flatMap_nil, List.append_nil]
      rw [(hK k).2]
      rfl
    · intro q hq
      rw [hch, htok] at hq
      simp at hq
      rw [hq]
      exact (hK k).1
    · intro rest hrest
      rw [hch, htok]
      show tailG (w :: (List.replicate k (W ")") ++ rest)) = _
      show gluedGo w (List.replicate k (W ")") ++ rest) = _
      rw [gluedGo_parens k w rest]
      rcases hrest with hrest | ⟨r, rs, hrest, hr⟩
      · subst hrest
        simp [gluedGo, tailG]
      · subst hrest
        have hl : ¬ (w ++ List.replicate k ')').getLast? = some '(' := by
          match k with
          | 0 => simpa using hlast
          | j + 1 =>
              rw [List.getLast?_append_of_ne_nil _ (by simp),
                replicate_getLast]
              simp
        rw [gluedGo_step _ r rs hr hl]
        rfl

mutual

theorem elem_serial (e : SExpr) :
    goodS e = true →
    ∃ ts, elemToks e = .ok ts ∧
      (∃ u us, ts = u :: us ∧ ¬ u = W ")") ∧
      (∀ w ∈ ts, ¬ w = []) ∧
      ∀ k,
        ((chunksT e k).flatMap thirdPassTok =
          ts ++ List.replicate k (W ")")) ∧
        (∀ q ∈ chunksT e k, goodChunk q) ∧
        (∀ rest, (rest = [] ∨ ∃ r rs, rest = r :: rs ∧ ¬ r = W ")") →
          tailG (ts ++ List.replicate k (W ")") ++ rest) =
            chunksT e k ++ tailG rest) := by
  intro he
  match e with
  | .val v => exact elem_serial_atom (.val v) he (fun es h => SExpr.noConfusion h)
  | .sym s => exact elem_serial_atom (.sym s) he (fun es h => SExpr.noConfusion h)
  | .key s => exact elem_serial_atom (.key s) he (fun es h => SExpr.noConfusion h)
  | .form [] => simp [goodS] at he
  | .form [.sym h] => simp [goodS] at he
  | .form [.val v] => simp [goodS] at he
  | .form [.key s] => simp [goodS] at he
  | .form [.form g] => simp [goodS] at he
  | .form (.val v :: e' :: rest') => simp [goodS] at he
  | .form (.key s :: e' :: rest') => simp [goodS] at he
  | .form (.form g :: e' :: rest') => simp [goodS] at he
  | .form (.sym h :: e' :: rest') =>
      have hee : (goodName h && !decide (h = W "null") && !floatName h &&
          goodL (e' :: rest')) = true := he
      simp only [Bool.and_eq_true, Bool.not_eq_true',
        decide_eq_false_iff_not] at hee
      · obtain ⟨⟨⟨hgn, hnn⟩, hfn⟩, hgl⟩ := hee
        obtain ⟨wh, hdeh, hath, hchh⟩ := atomize_sym h hgn hnn hfn
        have whne : ¬ wh = [] := by
          intro h0
          rw [h0] at hath
          simp [atomize] at hath
        have hfacts : ∀ c ∈ wh, ¬ c = '"' ∧ ¬ c = ')' ∧ ¬ c = '(' ∧
            ¬ isWs c = true ∧ ¬ c = '.' ∧ ¬ c = ' ' :=
          fun c hc => nameTokChar (hchh c hc)
        obtain ⟨M, hM, ⟨uM, usM, hMc, huM⟩, hMne, hKL⟩ :=
          list_serial (e' :: rest') hgl (by simp)
        have hesym : elemToks (.sym h) = .ok [wh] := by
          show (deatomize (.sym h)).map ([·]) = _
          rw [hdeh]
          rfl
        have hwtl : writeTokList (.sym h :: e' :: rest') = .ok (wh :: M) := by
          rw [writeTokList_cons, hesym, ok_bind, hM, ok_bind]
          rfl
        have hts : elemToks (.form (.sym h :: e' :: rest')) =
            .ok (W "(" :: (wh :: M) ++ [W ")"]) := by
          show (writeTokList (.sym h :: e' :: rest')).map
            (fun ts => W "(" :: ts ++ [W ")"]) = _
          rw [hwtl]
          rfl
        have htokh : tokA (.sym h) = wh := by unfold tokA; rw [hdeh]
        have hlastwh : ¬ ('(' :: wh).getLast? = some '(' := by
          rw [show ('(' :: wh) = ['('] ++ wh from rfl,
            List.getLast?_append_of_ne_nil _ whne]
          exact getLast_not_of_chars (fun c hc => (hfacts c hc).2.2.1)
        refine ⟨W "(" :: (wh :: M) ++ [W ")"], hts,
          ⟨W "(", _, rfl, by decide⟩, ?_, ?_⟩
        · intro x hx
          rcases List.mem_cons.mp hx with hx | hx
          · rw [hx]; decide
          rcases List.mem_append.mp hx with hx | hx
          · rcases List.mem_cons.mp hx with hx | hx
            · rw [hx]; exact whne
            · exact hMne x hx
          · simp at hx
            rw [hx]; decide
        · intro k
          have hch : chunksT (.form (.sym h :: e' :: rest')) k =
              ('(' :: wh) :: chunksL (e' :: rest') (k + 1) := by
            show ('(' :: tokA (.sym h)) :: chunksL (e' :: rest') (k + 1) = _
            rw [htokh]
          refine ⟨?_, ?_, ?_⟩
          · rw [hch]
            simp only [List.flatMap_cons]
            rw [thirdPassTok_paren wh whne, (hKL (k + 1)).1]
            simp [List.replicate_succ, List.append_assoc]
          · intro q hq
            rw [hch] at hq
            rcases List.mem_cons.mp hq with hq | hq
            · rw [hq]
              apply goodChunk_single
              · simp
              · intro c hc
                rcases List.mem_cons.mp hc with hc | hc
                · rw [hc]; decide
                · exact (hfacts c hc).2.2.2.1
              · unfold countQuotes
                rw [List.count_cons_of_ne (by decide),
                  List.count_eq_zero.mpr (fun hm => (hfacts '"' hm).1 rfl)]
            · exact (hKL (k + 1)).2.1 q hq
          · intro rest hrest
            rw [hch]
            have hstream : (W "(" :: (wh :: M) ++ [W ")"]) ++
                List.replicate k (W ")") ++ rest =
                W "(" :: wh :: (M ++ List.replicate (k + 1) (W ")") ++ rest) := by
              simp [List.replicate_succ, List.append_assoc]
            rw [hstream]
            show gluedGo (W "(") (wh :: (M ++ List.replicate (k + 1) (W ")") ++ rest)) = _
            rw [gluedGo_attach (W "(") wh _ (fun hcond => hcond.2 rfl)]
            have hw2 : W "(" ++ wh = '(' :: wh := rfl
            rw [hw2]
            have hMstream : M ++ List.replicate (k + 1) (W ")") ++ rest =
                uM :: (usM ++ List.replicate (k + 1) (W ")") ++ rest) := by
              rw [hMc]
              simp [List.append_assoc]
            rw [hMstream]
            rw [gluedGo_step ('(' :: wh) uM _ huM hlastwh]
            have hback : gluedGo uM (usM ++ List.replicate (k + 1) (W ")") ++ rest) =
                tailG (M ++ List.replicate (k + 1) (W ")") ++ rest) := by
              rw [hMstream]
              rfl
            rw [hback, (hKL (k + 1)).2.2 rest hrest]
            rfl
termination_by sizeOf e

theorem list_serial (es : List SExpr) :
    goodL es = true → ¬ es = [] →
    ∃ M, writeTokList es = .ok M ∧
      (∃ u us, M = u :: us ∧ ¬ u = W ")") ∧
      (∀ w ∈ M, ¬ w = []) ∧
      ∀ k,
        ((chunksL es k).flatMap thirdPassTok =
          M ++ List.replicate k (W ")")) ∧
        (∀ q ∈ chunksL es k, goodChunk q) ∧
        (∀ rest, (rest = [] ∨ ∃ r rs, rest = r :: rs ∧ ¬ r = W ")") →
          tailG (M ++ List.replicate k (W ")") ++ rest) =
            chunksL es k ++ tailG rest) := by
  intro hgl hne
  match es with
  | [] => exact absurd rfl hne
  | [e] =>
      have hgs : goodS e = true := by
        simp only [goodL, Bool.and_eq_true] at hgl
        exact hgl.1
      obtain ⟨ts, hts, hhead, htne, hK⟩ := elem_serial e hgs
      have hM : writeTokList [e] = .ok ts := by
        rw [writeTokList_cons, hts, ok_bind]
        show Except.ok (ts ++ []) = _
        rw [List.append_nil]
      refine ⟨ts, hM, hhead, htne, ?_⟩
      intro k
      have hch : chunksL [e] k = chunksT e k := rfl
      rw [hch]
      exact hK k
  | e :: e' :: rest' =>
      have hgs : goodS e = true := by
        simp only [goodL, Bool.and_eq_true] at hgl
        exact hgl.1
      have hgl' : goodL (e' :: rest') = true := by
        simp only [goodL, Bool.and_eq_true] at hgl ⊢
        exact hgl.2
      obtain ⟨pre, hpre, ⟨uP, usP, hPc, huP⟩, hprene, hKE⟩ := elem_serial e hgs
      obtain ⟨M', hM', ⟨uM, usM, hMc, huM⟩, hM'ne, hKL⟩ :=
        list_serial (e' :: rest') hgl' (by simp)
      have hM : writeTokList (e :: e' :: rest') = .ok (pre ++ M') := by
        rw [writeTokList_cons, hpre, ok_bind, hM', ok_bind]
      refine ⟨pre ++ M', hM, ⟨uP, usP ++ M', by rw [hPc]; simp, huP⟩, ?_, ?_⟩
      · intro x hx
        rcases List.mem_append.mp hx with hx | hx
        · exact hprene x hx
        · exact hM'ne x hx
      · intro k
        have hch : chunksL (e :: e' :: rest') k =
            chunksT e 0 ++ chunksL (e' :: rest') k := rfl
        refine ⟨?_, ?_, ?_⟩
        · rw [hch]
          rw [List.flatMap_append, (hKE 0).1, (hKL k).1]
          simp
        · intro q hq
          rw [hch] at hq
          rcases List.mem_append.mp hq with hq | hq
          · exact (hKE 0).2.1 q hq
          · exact (hKL k).2.1 q hq
        · intro rest hrest
          rw [hch]
          have hstream : (pre ++ M') ++ List.replicate k (W ")") ++ rest =
              pre ++ List.replicate 0 (W ")") ++
                (M' ++ List.replicate k (W ")") ++ rest) := by
            simp [List.append_assoc]
          rw [hstream]
          rw [(hKE 0).2.2 (M' ++ List.replicate k (W ")") ++ rest)
            (Or.inr ⟨uM, usM ++ List.replicate k (W ")") ++ rest,
              by rw [hMc]; simp [List.append_assoc], huM⟩)]
          rw [(hKL k).2.2 rest hrest]
          simp [List.append_assoc]
termination_by sizeOf es

end

/-! ### The token pipeline, assembled -/

end LabelCorrection
